import Mathlib

/-!
# Verification of the `ledger` core against its specification

Shallow embedding of the `ledger` repository's core data types and
algorithms (money, calendar, record store, limit accounting, report
builders), translated from the Rust sources, together with theorems
settling the specification claims.

Machine integers (`i64`, `u16`, `u32`, `usize`) are modelled as `Int`/`Nat`
with explicit wrapping where the Rust source can overflow in release mode;
fallible operations return `Option`.
-/

namespace Ledger

/-! ## Utility constants and digit counting (src: lib/src/util.rs and
base/src/util.rs — identical in all snapshots) -/

def BOUNDING_SPACES_COUNT : Nat := 2
def MIN_DASHES_COUNT : Nat := 2
def MIN_TERM_WIDTH : Nat := 60

/-- The `while n >= ceil { ceil *= 10; count += 1 }` loop of
`util::count_digits`, with the loop variable `ceil` represented through the
invariant `ceil = 10 ^ count` (the source initialises `ceil = 10`,
`count = 1` and only ever multiplies `ceil` by 10). -/
def countDigitsAux (n : Nat) (count : Nat) : Nat :=
  if n ≥ 10 ^ count then countDigitsAux n (count + 1) else count
termination_by n + 1 - 10 ^ count
decreasing_by
  have h1 : 10 ^ count < 10 ^ (count + 1) := by
    have := Nat.one_le_two_pow (n := count)
    calc 10 ^ count < 10 ^ count * 10 := by
          have : 0 < 10 ^ count := Nat.pos_pow_of_pos count (by norm_num)
          omega
      _ = 10 ^ (count + 1) := (pow_succ 10 count).symm
  omega

/-- `util::count_digits` (number of decimal digits of a `u64`; the early
return handles the values with 20 digits). -/
def count_digits (n : Nat) : Nat :=
  if n ≥ 10000000000000000000 then 20 else countDigitsAux n 1

/-! ## Cents (src: lib/src/cents.rs)

`Cents` wraps an `i64`; we model the value as an `Int` together with the
`i64` range bounds. -/

def I64_MIN : Int := -(2 ^ 63)
def I64_MAX : Int := 2 ^ 63 - 1

/-- `i64::abs` with Rust release-mode semantics: `i64::MIN.abs()` wraps to
`i64::MIN` (two's-complement overflow). -/
def i64abs (n : Int) : Int :=
  if n = I64_MIN then I64_MIN else (n.natAbs : Int)

/-- The byte pushed by one `pop_digit!()` expansion:
`b'0' + (cents % 10) as u8` with Rust `%` (truncated remainder), an
`i64 → u8` cast (low 8 bits) and wrapping `u8` addition. For non-negative
`cents` this is just `48 + cents % 10`. -/
def digByte (cents : Int) : Nat :=
  ((48 + (cents.tmod 10).emod 256).emod 256).toNat

/-- The digit/comma emission loop of `impl Display for Cents`
(`while cents > 0 { if i % 3 == 0 { push ',' } i += 1; pop_digit!() }`),
returning the pushed bytes in push order. `44` is `b','`. -/
def displayLoop (cents : Int) (i : Nat) : List Nat :=
  if h : 0 < cents then
    (if i % 3 == 0 then [44] else []) ++ digByte cents :: displayLoop (cents.tdiv 10) (i + 1)
  else []
termination_by cents.toNat
decreasing_by
  have h2 : cents.tdiv 10 = cents / 10 := Int.tdiv_eq_ediv (le_of_lt h) (by norm_num)
  rw [h2]
  omega

/-- `impl Display for Cents`: the full byte string (two decimal digits, a
point `46 = b'.'`, at least one integer digit, thousands separators, and
parentheses `40/41` around negative values). -/
def centsToBytes (n : Int) : List Nat :=
  let a := i64abs n
  let b0 := digByte a
  let a1 := a.tdiv 10
  let b1 := digByte a1
  let a2 := a1.tdiv 10
  let b2 := digByte a2
  let a3 := a2.tdiv 10
  let body := ([b0, b1, 46, b2] ++ displayLoop a3 1).reverse
  if n < 0 then 40 :: (body ++ [41]) else body

/-- `Cents::to_string()`. -/
def centsToString (n : Int) : String :=
  ⟨(centsToBytes n).map Char.ofNat⟩

/-- `Cents::charlen` (`cents.to_string().len()` computed without building
the string). -/
def charlen (n : Int) : Nat :=
  let u := (max (i64abs n) 100).toNat
  let len := count_digits u
  let len := len + (len - 3) / 3
  let len := len + 1
  if n < 0 then len + 2 else len

/-- `Cents::charlen_for_alignment` (`charlen() + (self >= 0) as usize`). -/
def charlen_for_alignment (n : Int) : Nat :=
  charlen n + (if 0 ≤ n then 1 else 0)

/-- `Vec::swap` on a list (both indices in bounds in every use below). -/
def vecSwap (l : List Char) (i j : Nat) : List Char :=
  (l.set i (l.getD j ' ')).set j (l.getD i ' ')

/-- `Iterator::position`: index of the first element satisfying `p`. -/
def position (p : Char → Bool) : List Char → Option Nat
  | [] => none
  | c :: l => if p c then some 0 else (position p l).map (· + 1)

/-- The decimal-point normalisation step of `Cents::from_str`:
`if let Some(i) = position('.') { swap(i, i+1); swap(i+1, i+2); truncate(i+2) }`. -/
def shiftDecimal (l : List Char) : List Char :=
  match position (· == '.') l with
  | none => l
  | some i => (vecSwap (vecSwap l i (i + 1)) (i + 1) (i + 2)).take (i + 2)

/-- One step of Rust's `str::parse::<i64>` digit accumulation. -/
def digitVal? (c : Char) : Option Nat :=
  if '0' ≤ c ∧ c ≤ '9' then some (c.toNat - 48) else none

/-- Digit-string parsing: fails on an empty string or any non-digit. -/
def parseNatDigits (l : List Char) : Option Nat :=
  match l with
  | [] => none
  | _ =>
    l.foldl
      (fun acc c =>
        match acc, digitVal? c with
        | some a, some d => some (a * 10 + d)
        | _, _ => none)
      (some 0)

/-- `str::parse::<i64>`: optional sign, one or more digits, overflow
checked against the `i64` range. -/
def parseI64 (l : List Char) : Option Int :=
  match l with
  | [] => none
  | c :: rest =>
    if c = '+' then
      (parseNatDigits rest).bind fun v =>
        if (v : Int) ≤ I64_MAX then some (v : Int) else none
    else if c = '-' then
      (parseNatDigits rest).bind fun v =>
        if (v : Int) ≤ 2 ^ 63 then some (-(v : Int)) else none
    else
      (parseNatDigits l).bind fun v =>
        if (v : Int) ≤ I64_MAX then some (v : Int) else none

/-- `s.replace(',', "")`. -/
def stripCommas (l : List Char) : List Char := l.filter (· ≠ ',')

/-- `Cents::from_str`: strip commas, append two `'0'` padding digits and
reposition the decimal point (unless the stripped input is one of the
six early-rejected strings), then parse as `i64`. -/
def centsFromStr (s : String) : Option Int :=
  let s1 := stripCommas s.toList
  if s1 ∈ [[], ['+'], ['-'], ['.'], ['+', '.'], ['-', '.']] then
    parseI64 s1
  else
    parseI64 (shiftDecimal (s1 ++ ['0', '0']))

/-! ## Datepart and Date (src: lib/src/datepart.rs, lib/src/date.rs)

The source wraps `chrono::NaiveDate`, restricted by `Date::new` to
`[0000-01-01, 9999-12-31]`. We model a date as its civil `(year, month,
day)` triple; `chrono`'s validity predicate (together with the `Date::new`
bound) becomes `dateValid`, and `chrono`'s day arithmetic
(`checked_add_signed` with a day count) is modelled by iterating the
calendar successor/predecessor inside the bounds. -/

inductive Datepart where
  | year : Datepart
  | month : Datepart
  | day : Datepart
deriving DecidableEq, Repr

structure Date where
  year : Nat
  month : Nat
  day : Nat
deriving DecidableEq, Repr

/-- The Gregorian leap rule as written in `Date::last_of`:
`y % 4 == 0 && (y % 100 != 0 || y % 400 == 0)`. -/
def isLeapYear (y : Nat) : Bool :=
  y % 4 == 0 && (y % 100 != 0 || y % 400 == 0)

/-- The month-length table `[0, 31, 28, …]` of `Date::last_of`. -/
def monthLengths : List Nat :=
  [0, 31, 28, 31, 30, 31, 30, 31, 31, 30, 31, 30, 31]

/-- Days in a month: 29 for a leap-year February, else the table entry. -/
def daysInMonth (y m : Nat) : Nat :=
  if m == 2 && isLeapYear y then 29 else monthLengths.getD m 0

/-- Validity of a `(y, m, d)` triple: `chrono`'s calendar validity plus the
`Date::new` range bound `Date::MIN ≤ d ≤ Date::MAX` (i.e. `y ≤ 9999`). -/
def dateValid (y m d : Nat) : Bool :=
  1 ≤ m && m ≤ 12 && 1 ≤ d && d ≤ daysInMonth y m && y ≤ 9999

/-- `Date::from_ymd`. -/
def Date.from_ymd (y m d : Nat) : Option Date :=
  if dateValid y m d then some ⟨y, m, d⟩ else none

/-- 0000-01-01 (`Date::MIN`). -/
def Date.MIN : Date := ⟨0, 1, 1⟩

/-- 9999-12-31 (`Date::MAX`). -/
def Date.MAX : Date := ⟨9999, 12, 31⟩

/-- `chrono::NaiveDate`'s `Ord`: chronological, i.e. lexicographic on the
`(year, month, day)` triple. -/
def Date.lt (a b : Date) : Bool :=
  a.year < b.year ||
    (a.year == b.year &&
      (a.month < b.month || (a.month == b.month && a.day < b.day)))

def Date.le (a b : Date) : Bool := !(Date.lt b a)

/-- `Ord::min`: `a` if `a ≤ b`, else `b`. -/
def Date.minD (a b : Date) : Date := if Date.le a b then a else b

/-- `Ord::max`: `b` if `b ≥ a`... `std::cmp::max` returns the second
argument on ties. -/
def Date.maxD (a b : Date) : Date := if Date.lt b a then a else b

/-- `Date::first_of`. -/
def Date.first_of (dt : Date) (part : Datepart) : Date :=
  match part with
  | .day => dt
  | .year => ⟨dt.year, 1, 1⟩
  | .month => ⟨dt.year, dt.month, 1⟩

/-- `Date::last_of`. -/
def Date.last_of (dt : Date) (part : Datepart) : Date :=
  match part with
  | .day => dt
  | .year => ⟨dt.year, 12, 31⟩
  | .month => ⟨dt.year, dt.month, daysInMonth dt.year dt.month⟩

/-- Calendar successor within `[Date::MIN, Date::MAX]` (the semantics of
`chrono`'s day arithmetic restricted by `Date::new`). -/
def nextDayOpt (dt : Date) : Option Date :=
  if dt.day < daysInMonth dt.year dt.month then some ⟨dt.year, dt.month, dt.day + 1⟩
  else if dt.month < 12 then some ⟨dt.year, dt.month + 1, 1⟩
  else if dt.year < 9999 then some ⟨dt.year + 1, 1, 1⟩
  else none

/-- Calendar predecessor within `[Date::MIN, Date::MAX]`. -/
def prevDayOpt (dt : Date) : Option Date :=
  if 1 < dt.day then some ⟨dt.year, dt.month, dt.day - 1⟩
  else if 1 < dt.month then
    some ⟨dt.year, dt.month - 1, daysInMonth dt.year (dt.month - 1)⟩
  else if 0 < dt.year then some ⟨dt.year - 1, 12, 31⟩
  else none

/-- Iterated fallible step. -/
def stepN (f : Date → Option Date) : Nat → Date → Option Date
  | 0, dt => some dt
  | n + 1, dt => (f dt).bind (stepN f n)

/-- The common tail of `Date::shift` for year/month shifts:
`from_ymd(y, m, 1)?.last_of(Month)`, then
`with_day(min(last_day, self.day))` and the `Date::new` bounds check. -/
def shiftYm (self : Date) (y m : Nat) : Option Date :=
  match Date.from_ymd y m 1 with
  | none => none
  | some dt0 =>
    let lastDay := (dt0.last_of .month).day
    let dd := min lastDay self.day
    if dateValid y m dd then some ⟨y, m, dd⟩ else none

/-- `Date::shift`. For `Day` the `chrono` day arithmetic is modelled by
iterating the in-bounds successor/predecessor. For `Year`/`Month` the
source's `checked_add`/`try_into`/`as u32` failure paths all collapse to
"negative or out-of-range year ⇒ `None`", which the `if … < 0` guard plus
the `from_ymd` check inside `shiftYm` reproduce. -/
def Date.shift (dt : Date) (part : Datepart) (offset : Int) : Option Date :=
  match part with
  | .day =>
    if 0 ≤ offset then stepN nextDayOpt offset.toNat dt
    else stepN prevDayOpt (-offset).toNat dt
  | .year =>
    let y : Int := (dt.year : Int) + offset
    if y < 0 then none else shiftYm dt y.toNat dt.month
  | .month =>
    let m0 : Int := (dt.month : Int) + offset
    let ym : Int × Int :=
      if m0 > 12 then ((dt.year : Int) + (m0 - 1).tdiv 12, (m0 - 1).tmod 12 + 1)
      else if m0 < 1 then ((dt.year : Int) + (m0 - 12).tdiv 12, (m0.tmod 12 + 11).tmod 12 + 1)
      else ((dt.year : Int), m0)
    if ym.1 < 0 then none else shiftYm dt ym.1.toNat ym.2.toNat

/-! Specification-side calendar helpers (used only to state and prove
properties; not translated from the source): the rank of a date, i.e. the
number of days since 0000-01-01. -/

/-- Number of leap years strictly before year `y` (year 0 is a leap year). -/
def leapsBefore : Nat → Nat
  | 0 => 0
  | y + 1 => leapsBefore y + (if isLeapYear y then 1 else 0)

/-- Days from 0000-01-01 to `y`-01-01. -/
def daysBeforeYear (y : Nat) : Nat := 365 * y + leapsBefore y

/-- Days from `y`-01-01 to `y`-`m`-01 (sum of the lengths of months
`1, …, m-1`; `daysInMonth y 0 = 0`). -/
def daysBeforeMonth (y m : Nat) : Nat :=
  ((List.range m).map (daysInMonth y)).sum

/-- Days since 0000-01-01. -/
def rata (dt : Date) : Nat :=
  daysBeforeYear dt.year + daysBeforeMonth dt.year dt.month + (dt.day - 1)

/-! ## Interval (src: src/base/interval.rs)

`end` is a Lean keyword, so the `end` field is named `end_`. -/

structure Interval where
  start : Date
  end_ : Date
deriving DecidableEq, Repr

/-- `Interval::is_empty` (`self.start > self.end`). -/
def Interval.is_empty (i : Interval) : Bool := Date.lt i.end_ i.start

/-- `Interval::MAX`. -/
def Interval.FULL : Interval := ⟨Date.MIN, Date.MAX⟩

/-- `Interval::EMPTY`. -/
def Interval.EMPTY : Interval := ⟨Date.MAX, Date.MIN⟩

/-- `Interval::intersection` (component-wise `max(start)` / `min(end)`). -/
def Interval.intersection (a b : Interval) : Interval :=
  ⟨Date.maxD a.start b.start, Date.minD a.end_ b.end_⟩

/-- Fuel bound for the subinterval iterator: strictly more than the rank of
any representable date, so the loop below never exhausts it. -/
def ITER_FUEL : Nat := 3700000

/-- The body of the iterator returned by `Interval::iter`: emit the current
subinterval, then advance its start by one `part` unit, re-align, clip to
the overall end and continue while non-empty. `fuel` only forces
termination; `ITER_FUEL` is proven sufficient. -/
def Interval.iterAux : Nat → Interval → Datepart → Interval → List Interval
  | 0, _, _, _ => []
  | fuel + 1, bounds, part, cur =>
    cur ::
      (match Date.shift cur.start part 1 with
       | none => []
       | some dtn =>
         let s := dtn.first_of part
         let e := Date.minD (dtn.last_of part) bounds.end_
         if Date.le s e then Interval.iterAux fuel bounds part ⟨s, e⟩ else [])

/-- `Interval::iter` as the list of yielded subintervals (the Rust iterator
is restartable and side-effect free, so the list captures it). -/
def Interval.iterList (i : Interval) (part : Datepart) : List Interval :=
  if i.is_empty then []
  else
    Interval.iterAux ITER_FUEL i part
      ⟨i.start, Date.minD (i.start.last_of part) i.end_⟩

/-! ## Records and limits (src: src/base/src/record.rs, src/src/base/limits.rs,
src/src/base/limitkind.rs)

`Cents` amounts are modelled as unbounded `Int` (the accounting arithmetic;
i64 wrapping is immaterial at this level). `Category` wraps a string. -/

structure Record where
  date : Date
  category : String
  amount : Int
  note : String
deriving DecidableEq, Repr

/-- `Recordlist` is a vector of records (`Vec<base::Record>`). -/
abbrev Recordlist := List Record

/-- `Limits` is a `BTreeMap<u16, Cents>`, modelled as its list of
`(year, limit)` entries (the map's iteration order does not affect sums). -/
abbrev Limits := List (Nat × Int)

/-- `Limits::inception_to_year`: `self.range(..=year).map(|(_, v)| v).sum()`,
i.e. the sum of the limits of all entries with key `≤ year`. -/
def Limits.inception_to_year (L : Limits) (year : Nat) : Int :=
  ((L.filter (fun kv => kv.1 ≤ year)).map Prod.snd).sum

inductive Limitkind where
  | Rrsp
  | Tfsa
deriving DecidableEq, Repr

/-- `Limitkind::remaining_rrsp`. -/
def Limitkind.remaining_rrsp (limits : Limits) (rl : Recordlist) (year : Nat) : Int :=
  Limits.inception_to_year limits year -
    (rl.map (fun r => if r.date.year ≤ year ∧ 0 < r.amount then r.amount else 0)).sum

/-- `Limitkind::remaining_tfsa`. -/
def Limitkind.remaining_tfsa (limits : Limits) (rl : Recordlist) (year : Nat) : Int :=
  Limits.inception_to_year limits year -
    (rl.map (fun r => if r.date.year ≤ year ∧ 0 < r.amount then r.amount else 0)).sum +
    (rl.map (fun r => if r.date.year < year ∧ r.amount < 0 then -r.amount else 0)).sum

/-- `Limitkind::remaining`. -/
def Limitkind.remaining : Limitkind → Limits → Recordlist → Nat → Int
  | .Rrsp, limits, rl, year => Limitkind.remaining_rrsp limits rl year
  | .Tfsa, limits, rl, year => Limitkind.remaining_tfsa limits rl year

/-! Specification-side aggregates (stated from the spec's words, to be
compared with the implementation). -/

/-- Sum of the amounts of positive-amount records dated in a year `≤ year`. -/
def contributionsThrough (rl : Recordlist) (year : Nat) : Int :=
  ((rl.filter (fun r => decide (r.date.year ≤ year) && decide (0 < r.amount))).map
    Record.amount).sum

/-- Total magnitude of negative-amount records dated strictly before `year`. -/
def withdrawalsBefore (rl : Recordlist) (year : Nat) : Int :=
  ((rl.filter (fun r => decide (r.date.year < year) && decide (r.amount < 0))).map
    (fun r => -r.amount)).sum

/-! ## Recordlist (src: src/src/base/recordlist.rs)

`slice::partition_point(pred)` is a binary search whose result is specified
exactly on partitioned slices — the only way the source uses it — where it
equals the length of the prefix satisfying `pred`, which is how it is
modelled here. -/

def partitionPoint (pred : Record → Bool) (l : List Record) : Nat :=
  (l.takeWhile pred).length

/-- `Recordlist::insert`: insert at
`partition_point(|x| x.date() <= r.date())`. -/
def Recordlist.insert (l : Recordlist) (r : Record) : Recordlist :=
  let i := partitionPoint (fun x => Date.le x.date r.date) l
  l.take i ++ r :: l.drop i

/-- `Recordlist::slice_spanning_interval` (`&self.0[i..j]`). -/
def Recordlist.slice_spanning_interval (l : Recordlist) (interval : Interval) :
    List Record :=
  if interval.is_empty then []
  else
    let i := partitionPoint (fun x => Date.lt x.date interval.start) l
    let j := i + partitionPoint (fun x => Date.le x.date interval.end_) (l.drop i)
    (l.take j).drop i

/-- `Recordlist::index_of` (`i.checked_add(iid)` cannot overflow in the
`Nat` model). -/
def Recordlist.index_of (l : Recordlist) (dt : Date) (iid : Nat) : Option Nat :=
  let i := partitionPoint (fun x => Date.lt x.date dt) l
  let j := i + partitionPoint (fun x => Date.le x.date dt) (l.drop i)
  let k := i + iid
  if k < j then some k else none

/-- `Recordlist::get`. -/
def Recordlist.get (l : Recordlist) (dt : Date) (iid : Nat) : Option Record :=
  (Recordlist.index_of l dt iid).bind (fun i => l[i]?)

/-- `Recordlist::remove`, modelled as returning the removed record (if any)
together with the resulting list; `Vec::remove` at the in-bounds index
found by `index_of`, and the untouched list when `index_of` fails. -/
def Recordlist.remove (l : Recordlist) (dt : Date) (iid : Nat) :
    Option Record × Recordlist :=
  match Recordlist.index_of l dt iid with
  | none => (none, l)
  | some i => (l[i]?, l.eraseIdx i)

/-- The loop of `Recordlist::iter_with_iid`: the running ordinal is reset
to 0 whenever the date strictly increases from the previous record, and
incremented by 1 after every yield. -/
def iterWithIidAux : Nat → Option Date → List Record → List (Nat × Record)
  | _, _, [] => []
  | iid, prev, r :: rest =>
    let iid2 := match prev with
      | some d => if Date.lt d r.date then 0 else iid
      | none => iid
    (iid2, r) :: iterWithIidAux (iid2 + 1) (some r.date) rest

/-- `Recordlist::iter_with_iid`. -/
def Recordlist.iter_with_iid (l : Recordlist) : List (Nat × Record) :=
  iterWithIidAux 0 none l

/-- The `Recordlist` invariant: records sorted by date (specification-side;
`Vec::sort_by_key` in `from_vec` and the insertion point in `insert`
maintain it). -/
abbrev sortedByDate (l : Recordlist) : Prop :=
  l.Pairwise (fun a b => Date.le a.date b.date = true)

/-! ## Charset and trees (src: src/lib/src/charset.rs, src/lib/src/tree.rs)

The `src/base` crate of the `src/src` snapshot re-exports these modules;
their sources are the matching files under `src/lib/src`. -/

structure Charset where
  dash : Char
  tree_sideways_t : String
  tree_corner : String
  tree_pipe_gap : String
  tree_space : String
  chart_axis : Char
  chart_bar_pos : Char
  chart_bar_neg : Char
  color_prefix_green : String
  color_prefix_yellow : String
  color_prefix_red : String
  color_suffix : String

/-- `Charset::default`. -/
def Charset.default : Charset :=
  ⟨'-', "|-- ", "`-- ", "|   ", "    ", '|', '+', '-', "", "", "", ""⟩

inductive Node where
  | mk (data : String) (children : List Node)

def Node.data : Node → String
  | .mk d _ => d

def Node.children : Node → List Node
  | .mk _ c => c

/-- `Node::default` (the root node). -/
def Node.root0 : Node := ⟨"", []⟩

/-- `Vec::push` on a node's children. -/
def Node.push (n : Node) (c : Node) : Node := ⟨n.data, n.children ++ [c]⟩

/-- Rebuild the last child through `f` (`last_child` in forview.rs; the
source `expect`s the child to exist, which holds at every call site). -/
def Node.modifyLast (n : Node) (f : Node → Node) : Node :=
  match n.children.getLast? with
  | some c => ⟨n.data, n.children.dropLast ++ [f c]⟩
  | none => n

/-- `last_child_has_data`. -/
def lastChildHasData (n : Node) (s : String) : Bool :=
  match n.children.getLast? with
  | some child => child.data == s
  | none => false

mutual
/-- `write_node` of `impl Display for Tree` and its loop over children
(the mutable working buffer is push-then-truncated, i.e. each child
list is rendered under `pre ++ child_prefix_tail`); the last-child flag is
`i >= len - 1`. -/
def writeNode (cs : Charset) (pre : String) (isLast : Bool) : Node → String
  | .mk data children =>
    pre ++ (if isLast then cs.tree_corner else cs.tree_sideways_t) ++ data ++ "\n" ++
      writeChildren cs (pre ++ (if isLast then cs.tree_space else cs.tree_pipe_gap))
        children

def writeChildren (cs : Charset) (pre : String) : List Node → String
  | [] => ""
  | [c] => writeNode cs pre true c
  | c :: c2 :: rest => writeNode cs pre false c ++ writeChildren cs pre (c2 :: rest)
end

/-- The top loop of `impl Display for Tree`: level-1 nodes are written
bare, their subtrees through `write_node` with an empty prefix. -/
def treeRenderLv1 (cs : Charset) : List Node → String
  | [] => ""
  | lv1 :: rest =>
    lv1.data ++ "\n" ++ writeChildren cs "" lv1.children ++ treeRenderLv1 cs rest

structure Tree where
  charset : Charset
  root : Node

/-- `Tree::to_string` (`impl Display for Tree`). -/
def Tree.render (t : Tree) : String := treeRenderLv1 t.charset t.root.children

/-- `Tree::is_empty`. -/
def Tree.is_empty (t : Tree) : Bool := t.root.children.isEmpty

/-! ## Tree-for-view builder (src: src/lib/src/tree/forview.rs) -/

/-- `tree::forview::Config`. The postprocessor closure also receives the
config itself in the source; the `Config` is fixed at every call site, so
the model curries it away. -/
structure ForviewConfig where
  charset : Charset
  first_iid : Nat
  rl : Recordlist
  leaf_string_postprocessor : Option (Record → Nat → String → String)

/-- `format!("{}", n)` for a `usize`. -/
def natToString (n : Nat) : String := toString n

/-- `Config::get_alignment_charlen` (`max().unwrap_or_default()`). -/
def ForviewConfig.get_alignment_charlen (cfg : ForviewConfig) : Nat :=
  ((cfg.rl.iter_with_iid).map (fun p =>
      count_digits (p.1 + cfg.first_iid) + BOUNDING_SPACES_COUNT + MIN_DASHES_COUNT +
        charlen_for_alignment p.2.amount)).foldl Nat.max 0

/-- `Config::leaf_data`. -/
def ForviewConfig.leaf_data (cfg : ForviewConfig) (r : Record) (iid0 : Nat)
    (alignment_charlen : Nat) : String :=
  let iid := iid0 + cfg.first_iid
  let dash_count := alignment_charlen - count_digits iid - BOUNDING_SPACES_COUNT -
    charlen_for_alignment r.amount
  let s := natToString iid ++ " " ++ String.mk (List.replicate dash_count cfg.charset.dash) ++
    " " ++ centsToString r.amount ++ (if 0 ≤ r.amount then " " else "") ++ " " ++
    r.category ++ (if r.note ≠ "" then ": " ++ r.note else "")
  match cfg.leaf_string_postprocessor with
  | some lspp => lspp r iid0 s
  | none => s

/-- The ordinal-suffix day table of `Config::make_day`. -/
def dayStrs : List String :=
  ["", "1st", "2nd", "3rd", "4th", "5th", "6th", "7th", "8th", "9th", "10th",
   "11th", "12th", "13th", "14th", "15th", "16th", "17th", "18th", "19th", "20th",
   "21st", "22nd", "23rd", "24th", "25th", "26th", "27th", "28th", "29th", "30th",
   "31st"]

/-- The short month-name table of `Config::make_month` (also used by the
barchart's `[month repr:short]` label format). -/
def monthStrs : List String :=
  ["", "Jan", "Feb", "Mar", "Apr", "May", "Jun",
   "Jul", "Aug", "Sep", "Oct", "Nov", "Dec"]

/-- `Config::make_leaf`. -/
def ForviewConfig.make_leaf (cfg : ForviewConfig) (day : Node) (r : Record) (iid0 : Nat)
    (alignment_charlen : Nat) : Node :=
  day.push ⟨cfg.leaf_data r iid0 alignment_charlen, []⟩

/-- `Config::make_day`. -/
def ForviewConfig.make_day (cfg : ForviewConfig) (month : Node) (r : Record) (iid0 : Nat)
    (alignment_charlen : Nat) : Node :=
  let s := dayStrs.getD r.date.day ""
  let month := if ¬ lastChildHasData month s then month.push ⟨s, []⟩ else month
  month.modifyLast (fun day => cfg.make_leaf day r iid0 alignment_charlen)

/-- `Config::make_month`. -/
def ForviewConfig.make_month (cfg : ForviewConfig) (year : Node) (r : Record) (iid0 : Nat)
    (alignment_charlen : Nat) : Node :=
  let s := monthStrs.getD r.date.month ""
  let year := if ¬ lastChildHasData year s then year.push ⟨s, []⟩ else year
  year.modifyLast (fun month => cfg.make_day month r iid0 alignment_charlen)

/-- The four-digit year string of `Config::make_year`
(`(year / 1000) as u8 + b'0'` and friends; the `u8` casts wrap). -/
def yearStr (y : Nat) : String :=
  String.mk [Char.ofNat ((48 + y / 1000) % 256), Char.ofNat ((48 + y / 100 % 10) % 256),
    Char.ofNat ((48 + y / 10 % 10) % 256), Char.ofNat ((48 + y % 10) % 256)]

/-- `Config::make_year`. -/
def ForviewConfig.make_year (cfg : ForviewConfig) (root : Node) (r : Record) (iid0 : Nat)
    (alignment_charlen : Nat) : Node :=
  let s := yearStr r.date.year
  let root := if ¬ lastChildHasData root s then root.push ⟨s, []⟩ else root
  root.modifyLast (fun year => cfg.make_month year r iid0 alignment_charlen)

/-- `tree::forview::Config::to_tree`. -/
def ForviewConfig.to_tree (cfg : ForviewConfig) : Tree :=
  let alignment_charlen := cfg.get_alignment_charlen
  let root := (cfg.rl.iter_with_iid).foldl
    (fun root p => cfg.make_year root p.2 p.1 alignment_charlen) Node.root0
  ⟨cfg.charset, root⟩

/-! ## Aggregate (src: src/lib/src/aggregate.rs)

A `HashMap` plus a running sum. The map is modelled as an association list
in insertion order; the only order-sensitive consumer (`forsum`) sorts the
entries by a total strict order before use, so the hash order is
immaterial. -/

structure Aggregate (α : Type) where
  m : List (α × Int)
  sum : Int

def Aggregate.empty {α : Type} : Aggregate α := ⟨[], 0⟩

/-- `*(self.m.entry(key).or_default()) += value`. -/
def assocAdd {α : Type} [DecidableEq α] : List (α × Int) → α → Int → List (α × Int)
  | [], k, v => [(k, v)]
  | (k0, v0) :: rest, k, v =>
    if k0 = k then (k0, v0 + v) :: rest else (k0, v0) :: assocAdd rest k v

/-- `Aggregate::add`. -/
def Aggregate.add {α : Type} [DecidableEq α] (agg : Aggregate α) (key : α) (value : Int) :
    Aggregate α :=
  ⟨assocAdd agg.m key value, agg.sum + value⟩

/-- `Aggregate::get`. -/
def Aggregate.get {α : Type} [DecidableEq α] (agg : Aggregate α) (key : α) : Option Int :=
  (agg.m.find? (fun p => decide (p.1 = key))).map Prod.snd

/-- `Aggregate::is_empty`. -/
def Aggregate.is_empty {α : Type} (agg : Aggregate α) : Bool := agg.m.isEmpty

/-- `iter().map(|(_, v)| v).max().unwrap_or_default()` (order-free). -/
def maxOrZero : List Int → Int
  | [] => 0
  | [x] => x
  | x :: y :: rest => max x (maxOrZero (y :: rest))

/-! ## Category levels (src: src/lib/src/category.rs) -/

/-- Prefix of the characters before the `level`-th `'/'` (`match_indices`
over the ASCII separator cuts at a character boundary, so byte and
character prefixes agree). -/
def levelAux : List Char → Nat → Option (List Char)
  | [], _ => none
  | c :: rest, k =>
    if c = '/' then
      if k ≤ 1 then some []
      else (levelAux rest (k - 1)).map (fun t => c :: t)
    else (levelAux rest k).map (fun t => c :: t)

/-- `Category::level` (`Category` wraps its string). -/
def Category.level (s : String) (lvl : Nat) : String :=
  if lvl == 0 then "All"
  else
    match levelAux s.data lvl with
    | some t => String.mk t
    | none => s

/-! ## Tree-for-sum builder (src: src/lib/src/tree/forsum.rs) -/

structure ForsumConfig where
  charset : Charset
  level : Nat
  rl : Recordlist

/-- The `sort_unstable_by` comparator of `forsum`: descending absolute
amount, ties (equal amounts) broken by ascending label. Distinct keys make
the order strict and total, so any correct sort yields the same list; it
is modelled by insertion sort. -/
def forsumBefore (x y : String × Int) : Bool :=
  if x.2 == y.2 then decide (x.1 < y.1) else decide (i64abs y.2 < i64abs x.2)

def insertSorted {α : Type} (before : α → α → Bool) : α → List α → List α
  | x, [] => [x]
  | x, y :: rest => if before x y then x :: y :: rest else y :: insertSorted before x rest

def sortByCmp {α : Type} (before : α → α → Bool) (l : List α) : List α :=
  l.foldr (insertSorted before) []

/-- The shared `char_count` of the forsum rows (`label.chars().count()` is
the character length). -/
def forsumCharCount (p : String × Int) : Nat :=
  p.1.length + BOUNDING_SPACES_COUNT + MIN_DASHES_COUNT + charlen_for_alignment p.2

/-- `forsum::Config::leaf_data`. -/
def ForsumConfig.leaf_data (cfg : ForsumConfig) (label : String) (amount : Int)
    (alignment_charlen : Nat) : String :=
  let dash_count := alignment_charlen - label.length - BOUNDING_SPACES_COUNT -
    charlen_for_alignment amount
  label ++ " " ++ String.mk (List.replicate dash_count cfg.charset.dash) ++ " " ++
    centsToString amount

/-- `forsum::Config::add_vec`. -/
def ForsumConfig.add_vec (cfg : ForsumConfig) (root : Node) (v : List (String × Int))
    (name : String) (alignment_charlen : Nat) : Node :=
  if v.isEmpty then root
  else root.push ⟨name, v.map (fun p => ⟨cfg.leaf_data p.1 p.2 alignment_charlen, []⟩)⟩

/-- `tree::forsum::Config::to_tree`. -/
def ForsumConfig.to_tree (cfg : ForsumConfig) : Tree :=
  let pn := cfg.rl.foldl
    (fun (pn : Aggregate String × Aggregate String) r =>
      if 0 < r.amount then (pn.1.add (Category.level r.category cfg.level) r.amount, pn.2)
      else if r.amount < 0 then
        (pn.1, pn.2.add (Category.level r.category cfg.level) r.amount)
      else pn)
    (Aggregate.empty, Aggregate.empty)
  let posv := sortByCmp forsumBefore pn.1.m
  let negv := sortByCmp forsumBefore pn.2.m
  let totv := [("In", pn.1.sum), ("Out", pn.2.sum), ("Total", pn.1.sum + pn.2.sum)]
  let alignment_charlen := ((posv ++ negv ++ totv).map forsumCharCount).foldl Nat.max 0
  let root := cfg.add_vec Node.root0 posv "In" alignment_charlen
  let root := cfg.add_vec root negv "Out" alignment_charlen
  let root := cfg.add_vec root totv "Net" alignment_charlen
  ⟨cfg.charset, root⟩

/-! ## Barchart (src: src/lib/src/barchart.rs) -/

structure BarchartConfig where
  charset : Charset
  bounds : Interval
  unit : Datepart
  term_width : Nat
  rl : Recordlist

structure Barchart where
  charset : Charset
  bounds : Interval
  unit : Datepart
  pos : Aggregate Date
  neg : Aggregate Date
  label_charlen : Nat
  max_val : Int
  max_barlen : Nat

/-- Writer-style concatenation of the pieces emitted by a render loop. -/
def strConcat : List String → String
  | [] => ""
  | s :: rest => s ++ strConcat rest

/-- `Recordlist::spanned_interval`. -/
def Recordlist.spanned_interval (l : Recordlist) : Interval :=
  match l.head?, l.getLast? with
  | some r1, some r2 => ⟨r1.date, r2.date⟩
  | _, _ => Interval.EMPTY

/-- `barchart::Config::to_barchart`. The `usize` subtractions in
`max_barlen` never underflow (`max(term_width, 60) ≥ 10 + 2 + 1 + 27`),
so truncating `Nat` subtraction agrees with the source. -/
def BarchartConfig.to_barchart (cfg : BarchartConfig) : Barchart :=
  let bounds := (cfg.rl.spanned_interval).intersection cfg.bounds
  let pn := (bounds.iterList cfg.unit).foldl
    (fun (pn : Aggregate Date × Aggregate Date) interval =>
      (cfg.rl.slice_spanning_interval interval).foldl
        (fun pn r =>
          if 0 < r.amount then (pn.1.add interval.start r.amount, pn.2)
          else if r.amount < 0 then (pn.1, pn.2.add interval.start (-r.amount))
          else pn)
        pn)
    (Aggregate.empty, Aggregate.empty)
  let label_charlen := match cfg.unit with
    | .year => 4
    | .month => 8
    | .day => 10
  let max_val := max (maxOrZero (pn.1.m.map Prod.snd)) (maxOrZero (pn.2.m.map Prod.snd))
  let max_barlen := max cfg.term_width MIN_TERM_WIDTH - label_charlen -
    BOUNDING_SPACES_COUNT - 1 - charlen (-max_val)
  ⟨cfg.charset, bounds, cfg.unit, pn.1, pn.2, label_charlen, max_val, max_barlen⟩

/-- `Barchart::is_empty`. -/
def Barchart.is_empty (b : Barchart) : Bool := b.bounds.is_empty

/-- Zero-padding to a fixed width (`time`'s default zero padding and
`chrono`'s `Display` both pad numeric fields). -/
def natPad (w n : Nat) : String :=
  let s := natToString n
  String.mk (List.replicate (w - s.length) '0') ++ s

/-- `chrono::NaiveDate`'s `Display` (the `Date` `Display`):
`YYYY-MM-DD`. -/
def dateToString (d : Date) : String :=
  natPad 4 d.year ++ "-" ++ natPad 2 d.month ++ "-" ++ natPad 2 d.day

/-- `Barchart::label` (the three `time` format descriptions). -/
def Barchart.label (b : Barchart) (dt : Date) : String :=
  match b.unit with
  | .year => natPad 4 dt.year
  | .month => natPad 4 dt.year ++ " " ++ monthStrs.getD dt.month ""
  | .day => dateToString dt

/-- `f64::round` (round half away from zero) on exact rationals: the `f64`
arithmetic of `Barchart::barlen` is modelled as exact rational
arithmetic. -/
def roundQ (q : ℚ) : Int :=
  if 0 ≤ q then Int.floor (q + 1 / 2) else -(Int.floor (-q + 1 / 2))

/-- `Barchart::barlen` (`as usize` saturates negative values to 0, i.e.
`Int.toNat`). -/
def Barchart.barlen (b : Barchart) (val : Int) : Nat :=
  min b.max_barlen (roundQ ((val : ℚ) / (b.max_val : ℚ) * (b.max_barlen : ℚ))).toNat

/-- `Barchart::draw` (the early `return Ok(())` after the positive line
when `neg` is empty, and the hard-coded `" |"` axis). -/
def Barchart.draw (b : Barchart) (dt : Date) : String :=
  if b.pos.is_empty && b.neg.is_empty then ""
  else
    let head := b.label dt ++ " |"
    let posPart :=
      if !b.pos.is_empty then
        let val := (b.pos.get dt).getD 0
        let bl := b.barlen val
        (if 0 < bl then
          b.charset.color_prefix_green ++
            String.mk (List.replicate bl b.charset.chart_bar_pos) ++
            b.charset.color_suffix ++ " "
         else "") ++ centsToString val ++ "\n"
      else ""
    if !b.pos.is_empty && b.neg.is_empty then head ++ posPart
    else
      let negHead :=
        if !b.pos.is_empty then String.mk (List.replicate b.label_charlen ' ') ++ " |"
        else ""
      let val := (b.neg.get dt).getD 0
      let bl := b.barlen val
      head ++ posPart ++ negHead ++
        (if 0 < bl then
          b.charset.color_prefix_red ++
            String.mk (List.replicate bl b.charset.chart_bar_neg) ++
            b.charset.color_suffix ++ " "
         else "") ++ centsToString (-val) ++ "\n"

/-- `impl Display for Barchart`: draw each subinterval's start. -/
def Barchart.render (b : Barchart) : String :=
  strConcat ((b.bounds.iterList b.unit).map (fun i => b.draw i.start))

/-! ## Limit printer (src: src/lib/src/limitprinter.rs) -/

structure LimitprinterConfig where
  charset : Charset
  year : Nat
  kind : Limitkind
  limits : Limits
  rl : Recordlist

structure Limitprinter where
  charset : Charset
  limits : List (String × Int)
  summary : List (String × Int)
  alignment_charlen : Nat

/-- `BTreeMap::range(..=year)` iterates entries with key `≤ year` in
ascending key order; the association-list model is filtered then sorted by
key. -/
def rangeToYear (L : Limits) (year : Nat) : List (Nat × Int) :=
  sortByCmp (fun x y : Nat × Int => decide (x.1 ≤ y.1)) (L.filter (fun kv => kv.1 ≤ year))

/-- The shared `char_count` of the limit-printer rows (`label.len()` on
the ASCII labels equals the character length). -/
def lpCharCount (p : String × Int) : Nat :=
  p.1.length + BOUNDING_SPACES_COUNT + MIN_DASHES_COUNT + charlen_for_alignment p.2

/-- `limitprinter::Config::to_limitprinter` (`format!("{:0>4}", year)` is
zero padding to width 4). -/
def LimitprinterConfig.to_limitprinter (cfg : LimitprinterConfig) : Limitprinter :=
  let limits := (rangeToYear cfg.limits cfg.year).map (fun kv => (natPad 4 kv.1, kv.2))
  let total := (limits.map Prod.snd).sum
  let remaining := Limitkind.remaining cfg.kind cfg.limits cfg.rl cfg.year
  let summary := [("Total", total), ("Remaining", remaining)]
  let alignment_charlen := max ((limits.map lpCharCount).foldl Nat.max 0)
    ((summary.map lpCharCount).foldl Nat.max 0)
  ⟨cfg.charset, limits, summary, alignment_charlen⟩

/-- `Limitprinter::draw` for one row. -/
def Limitprinter.drawRow (lp : Limitprinter) (row : String × Int) : String :=
  let dash_count := lp.alignment_charlen - row.1.length - BOUNDING_SPACES_COUNT -
    charlen_for_alignment row.2
  row.1 ++ " " ++ String.mk (List.replicate dash_count lp.charset.dash) ++ " " ++
    centsToString row.2 ++ "\n"

/-- `impl Display for Limitprinter` (`for _ in 1..alignment_charlen` emits
`alignment_charlen - 1` ruler characters). -/
def Limitprinter.render (lp : Limitprinter) : String :=
  strConcat (lp.limits.map lp.drawRow) ++
    (if !lp.limits.isEmpty then
      String.mk (List.replicate (lp.alignment_charlen - 1) '=') ++ "\n"
     else "") ++
    strConcat (lp.summary.map lp.drawRow)

/-! ## Output (src: src/cli/src/output.rs) -/

inductive Output where
  | Str (s : String)
  | TreeForSum (config : ForsumConfig) (interval : Interval)
  | TreeForView (config : ForviewConfig)
  | Barchart (config : BarchartConfig)
  | Limitprinter (config : LimitprinterConfig)

/-- `s.ends_with('\n')`. -/
def strEndsWithNL (s : String) : Bool := s.data.getLast? == some '\n'

/-- `impl Display for Output` (`Output::to_string`). -/
def Output.render : Output → String
  | .Str s => if strEndsWithNL s then s else s ++ "\n"
  | .TreeForSum config interval =>
    dateToString interval.start ++ " to " ++ dateToString interval.end_ ++ "\n" ++
      (config.to_tree).render
  | .TreeForView config =>
    if config.rl.isEmpty then "No transactions.\n" else (config.to_tree).render
  | .Barchart config =>
    if config.rl.isEmpty then "No transactions.\n" else (config.to_barchart).render
  | .Limitprinter config => (config.to_limitprinter).render

/-- The specification-side "ends with a newline" predicate. -/
def endsNL (s : String) : Prop := s.data.getLast? = some '\n'

/-! ## Theorems and supporting lemmas -/

/-! ### Supporting lemmas about digits and parsing -/

/-- Digit bytes produced for non-negative cents values. -/
theorem digByte_natCast (m : Nat) : digByte (m : Int) = 48 + m % 10 := by
  unfold digByte
  have h1 : (m : Int).tmod 10 = ((m % 10 : Nat) : Int) := by
    exact_mod_cast (Int.ofNat_tmod m 10).symm
  rw [h1]
  have h2 : m % 10 < 10 := Nat.mod_lt _ (by norm_num)
  have e1 : ((m % 10 : Nat) : Int).emod 256 = ((m % 10 : Nat) : Int) :=
    Int.emod_eq_of_lt (by positivity) (by exact_mod_cast h2.trans (by norm_num))
  rw [e1]
  have e2 : ((48 : Int) + ((m % 10 : Nat) : Int)).emod 256 = 48 + ((m % 10 : Nat) : Int) :=
    Int.emod_eq_of_lt (by positivity) (by push_cast; omega)
  rw [e2]
  omega

theorem tdiv_nat10 (m : Nat) : (m : Int).tdiv 10 = ((m / 10 : Nat) : Int) := rfl

/-- Unfolding of `displayLoop` on a natural-number argument. -/
theorem displayLoop_natCast (m i : Nat) :
    displayLoop (m : Int) i =
      if m = 0 then []
      else (if i % 3 == 0 then [44] else []) ++ (48 + m % 10) :: displayLoop ((m / 10 : Nat) : Int) (i + 1) := by
  rw [displayLoop]
  by_cases h : m = 0
  · simp [h]
  · have hpos : (0 : Int) < m := by exact_mod_cast Nat.pos_of_ne_zero h
    rw [dif_pos hpos, digByte_natCast, tdiv_nat10, if_neg h]

/-- Every byte emitted by the display loop (for non-negative input) is a
comma or a decimal digit byte. -/
theorem displayLoop_mem (m i : Nat) :
    ∀ b ∈ displayLoop (m : Int) i, b = 44 ∨ (48 ≤ b ∧ b ≤ 57) := by
  induction m using Nat.strong_induction_on generalizing i with
  | _ m ih =>
    intro b hb
    rw [displayLoop_natCast] at hb
    by_cases h : m = 0
    · simp [h] at hb
    · rw [if_neg h] at hb
      rcases List.mem_append.1 hb with h1 | h1
      · left
        by_cases h3 : i % 3 == 0 <;> simp [h3] at h1
        exact h1
      · rcases List.mem_cons.1 h1 with h2 | h2
        · right; have := Nat.mod_lt m (show 0 < 10 by norm_num); omega
        · exact ih (m / 10) (Nat.div_lt_self (Nat.pos_of_ne_zero h) (by norm_num)) _ b h2

/-- Removing the commas from the display loop's output leaves exactly the
decimal digits (least-significant first). -/
theorem displayLoop_filter (m i : Nat) :
    (displayLoop (m : Int) i).filter (· ≠ 44) = (Nat.digits 10 m).map (48 + ·) := by
  induction m using Nat.strong_induction_on generalizing i with
  | _ m ih =>
    rw [displayLoop_natCast]
    by_cases h : m = 0
    · simp [h]
    · rw [if_neg h]
      rw [Nat.digits_def' (by norm_num : 1 < 10) (Nat.pos_of_ne_zero h)]
      rw [List.filter_append]
      have hd : ((48 + m % 10 : Nat) ≠ 44) := by
        have := Nat.mod_lt m (show 0 < 10 by norm_num); omega
      have hcomma : (List.filter (fun b => decide (b ≠ 44)) (if (i % 3 == 0) = true then [44] else []) : List Nat) = [] := by
        by_cases h3 : i % 3 == 0 <;> simp [h3]
      rw [hcomma]
      simp only [List.filter_cons]
      rw [if_pos (by simpa using hd)]
      simp only [List.nil_append, List.map_cons]
      congr 1
      exact ih (m / 10) (Nat.div_lt_self (Nat.pos_of_ne_zero h) (by norm_num)) (i + 1)

/-- Length of the display loop output: one byte per digit plus the commas. -/
theorem displayLoop_length (m i : Nat) :
    (displayLoop (m : Int) i).length =
      (Nat.digits 10 m).length +
        ((Nat.digits 10 m).length + 2 - (3 - i % 3) % 3) / 3 := by
  induction m using Nat.strong_induction_on generalizing i with
  | _ m ih =>
    rw [displayLoop_natCast]
    by_cases h : m = 0
    · simp [h]; omega
    · rw [if_neg h]
      rw [Nat.digits_def' (by norm_num : 1 < 10) (Nat.pos_of_ne_zero h)]
      have ihm := ih (m / 10) (Nat.div_lt_self (Nat.pos_of_ne_zero h) (by norm_num)) (i + 1)
      simp only [List.length_append, List.length_cons, ihm]
      split_ifs with h3
      · have h4 : i % 3 = 0 := by simpa using h3
        simp only [List.length_cons, List.length_nil]
        omega
      · have h4 : ¬ (i % 3 = 0) := by simpa using h3
        simp only [List.length_nil]
        omega

/-- `countDigitsAux` computes `max count (log₁₀ n + 1)` on positive input. -/
theorem countDigitsAux_eq (n : Nat) (hn : 1 ≤ n) :
    ∀ count, countDigitsAux n count = max count (Nat.log 10 n + 1) := by
  intro count
  induction count using countDigitsAux.induct n with
  | case1 c hge ih =>
    rw [countDigitsAux, if_pos hge, ih]
    have : c ≤ Nat.log 10 n := Nat.le_log_of_pow_le (by norm_num) hge
    omega
  | case2 c hlt =>
    rw [countDigitsAux, if_neg hlt]
    have : Nat.log 10 n < c := Nat.log_lt_of_lt_pow (by omega) (by omega)
    omega

/-- For `1 ≤ n < 10^19`, `count_digits` agrees with the length of the
decimal digit expansion. -/
theorem count_digits_eq_digits_length (n : Nat) (h1 : 1 ≤ n) (h2 : n < 10 ^ 19) :
    count_digits n = (Nat.digits 10 n).length := by
  rw [count_digits, if_neg (by norm_num; omega)]
  rw [countDigitsAux_eq n h1 1]
  rw [Nat.digits_len 10 n (by norm_num) (by omega)]
  omega

theorem i64abs_of_nonneg {n : Int} (h : 0 ≤ n) : i64abs n = n := by
  rw [i64abs, if_neg (by rw [I64_MIN]; omega)]
  omega

theorem i64abs_of_neg_gt_min {n : Int} (hmin : I64_MIN < n) (h : n < 0) :
    i64abs n = (n.natAbs : Int) := by
  rw [i64abs, if_neg (by omega)]

/-- Structure of the display bytes of a non-negative value. -/
theorem centsToBytes_nonneg (n : Int) (h : 0 ≤ n) :
    centsToBytes n =
      (displayLoop ((n.toNat / 1000 : Nat) : Int) 1).reverse ++
        [48 + (n.toNat / 100) % 10, 46, 48 + (n.toNat / 10) % 10, 48 + n.toNat % 10] := by
  unfold centsToBytes
  rw [i64abs_of_nonneg h]
  have hc : n = ((n.toNat : Nat) : Int) := by omega
  rw [hc]
  dsimp only
  rw [tdiv_nat10, tdiv_nat10, tdiv_nat10]
  rw [digByte_natCast, digByte_natCast, digByte_natCast]
  rw [if_neg (by omega)]
  rw [Nat.div_div_eq_div_mul, Nat.div_div_eq_div_mul]
  rw [List.reverse_append]
  simp
  omega

/-- Structure of the display bytes of a negative value above `i64::MIN`. -/
theorem centsToBytes_neg (n : Int) (hmin : I64_MIN < n) (h : n < 0) :
    centsToBytes n =
      40 :: ((displayLoop ((n.natAbs / 1000 : Nat) : Int) 1).reverse ++
        [48 + (n.natAbs / 100) % 10, 46, 48 + (n.natAbs / 10) % 10, 48 + n.natAbs % 10]) ++ [41] := by
  unfold centsToBytes
  rw [i64abs_of_neg_gt_min hmin h]
  dsimp only
  rw [tdiv_nat10, tdiv_nat10, tdiv_nat10]
  rw [digByte_natCast, digByte_natCast, digByte_natCast]
  rw [if_pos h]
  rw [Nat.div_div_eq_div_mul, Nat.div_div_eq_div_mul]
  rw [List.reverse_append]
  simp

theorem I64_MIN_eq : I64_MIN = -9223372036854775808 := by rw [I64_MIN]; norm_num
theorem I64_MAX_eq : I64_MAX = 9223372036854775807 := by rw [I64_MAX]; norm_num

theorem digits_length_div1000 (m : Nat) (h : 100 ≤ m) :
    (Nat.digits 10 m).length = (Nat.digits 10 (m / 1000)).length + 3 := by
  rw [Nat.digits_def' (by norm_num : 1 < 10) (by omega)]
  rw [Nat.digits_def' (by norm_num : 1 < 10) (by omega : 0 < m / 10)]
  rw [Nat.digits_def' (by norm_num : 1 < 10) (by omega : 0 < m / 10 / 10)]
  have h3 : m / 10 / 10 / 10 = m / 1000 := by omega
  rw [h3]
  simp only [List.length_cons]

theorem displayLoop_length_one (m : Nat) :
    (displayLoop (m : Int) 1).length =
      (Nat.digits 10 m).length + (Nat.digits 10 m).length / 3 := by
  rw [displayLoop_length]
  omega

theorem displayLoop_zero (i : Nat) : displayLoop ((0 : Nat) : Int) i = [] := by
  rw [displayLoop_natCast]; simp

unseal countDigitsAux in
theorem count_digits_100 : count_digits 100 = 3 := by decide

unseal displayLoop countDigitsAux in
theorem charlen_min_val : charlen I64_MIN = 6 := by decide

unseal displayLoop in
theorem centsToBytes_min : centsToBytes I64_MIN = [40, 40, 46, 48, 40, 41] := by decide

/-- `Cents::charlen` agrees with the length of the rendered byte string. -/
theorem charlen_eq_bytes_length (n : Int) (h1 : I64_MIN ≤ n) (h2 : n ≤ I64_MAX) :
    charlen n = (centsToBytes n).length := by
  rw [I64_MIN_eq] at h1
  rw [I64_MAX_eq] at h2
  rcases lt_or_le n 0 with hneg | hpos
  · rcases eq_or_lt_of_le h1 with hmin | hmin
    · rw [← hmin, ← I64_MIN_eq, charlen_min_val, centsToBytes_min]
      rfl
    · -- negative, above MIN
      have hmin' : I64_MIN < n := by rw [I64_MIN_eq]; omega
      rw [centsToBytes_neg n hmin' hneg]
      rw [charlen]
      rw [i64abs_of_neg_gt_min hmin' hneg]
      simp only [List.length_cons, List.length_append, List.length_reverse,
        List.length_nil, displayLoop_length_one]
      rw [if_pos hneg]
      set na := n.natAbs with hna
      have hbound : na ≤ 9223372036854775808 := by omega
      by_cases hsmall : na ≤ 99
      · have hm : (max ((na : Nat) : Int) 100).toNat = 100 := by omega
        rw [hm, count_digits_100]
        have hz : na / 1000 = 0 := by omega
        rw [hz]
        simp
      · have hmx : (max ((na : Nat) : Int) 100).toNat = na := by omega
        rw [hmx]
        rw [count_digits_eq_digits_length na (by omega) (by norm_num; omega)]
        rw [digits_length_div1000 na (by omega)]
        omega
  · -- non-negative
    rw [centsToBytes_nonneg n hpos]
    rw [charlen]
    rw [i64abs_of_nonneg hpos]
    simp only [List.length_append, List.length_reverse, List.length_cons,
      List.length_nil, displayLoop_length_one]
    rw [if_neg (by omega)]
    set na := n.toNat with hna
    have hbound : na ≤ 9223372036854775807 := by omega
    by_cases hsmall : na ≤ 99
    · have hm : (max n 100).toNat = 100 := by omega
      rw [hm, count_digits_100]
      have hz : na / 1000 = 0 := by omega
      rw [hz]
      simp
    · have hmx : (max n 100).toNat = na := by omega
      rw [hmx]
      rw [count_digits_eq_digits_length na (by omega) (by norm_num; omega)]
      rw [digits_length_div1000 na (by omega)]
      omega

theorem digitVal?_ofNat (d : Nat) (h : d < 10) :
    digitVal? (Char.ofNat (48 + d)) = some d := by
  interval_cases d <;> decide

theorem charOfNat_digit_toNat (d : Nat) (h : d < 10) :
    (Char.ofNat (48 + d)).toNat = 48 + d := by
  interval_cases d <;> decide

theorem parseFold (ds : List Nat) (hd : ∀ d ∈ ds, d < 10) (acc : Nat) :
    List.foldl
      (fun acc c =>
        match acc, digitVal? c with
        | some a, some d => some (a * 10 + d)
        | _, _ => none)
      (some acc) (ds.map fun d => Char.ofNat (48 + d)) =
      some (acc * 10 ^ ds.length + Nat.ofDigits 10 ds.reverse) := by
  induction ds generalizing acc with
  | nil => simp [Nat.ofDigits]
  | cons d rest ih =>
    simp only [List.map_cons, List.foldl_cons]
    rw [digitVal?_ofNat d (hd d (by simp))]
    rw [ih (fun x hx => hd x (by simp [hx])) (acc * 10 + d)]
    congr 1
    rw [List.reverse_cons, Nat.ofDigits_append]
    simp [Nat.ofDigits]
    ring

theorem parseNatDigits_mapDigits (ds : List Nat) (hne : ds ≠ []) (hd : ∀ d ∈ ds, d < 10) :
    parseNatDigits (ds.map fun d => Char.ofNat (48 + d)) =
      some (Nat.ofDigits 10 ds.reverse) := by
  rcases ds with _ | ⟨d, rest⟩
  · exact absurd rfl hne
  · rw [show parseNatDigits ((d :: rest).map fun d => Char.ofNat (48 + d)) =
        List.foldl
          (fun acc c =>
            match acc, digitVal? c with
            | some a, some d => some (a * 10 + d)
            | _, _ => none)
          (some 0) ((d :: rest).map fun d => Char.ofNat (48 + d)) from rfl]
    have := parseFold (d :: rest) hd 0
    simpa using this

theorem parseNatDigits_head_none (c : Char) (l : List Char) (hc : digitVal? c = none) :
    parseNatDigits (c :: l) = none := by
  rw [show parseNatDigits (c :: l) =
      List.foldl
        (fun acc c =>
          match acc, digitVal? c with
          | some a, some d => some (a * 10 + d)
          | _, _ => none)
        (some 0) (c :: l) from rfl]
  simp only [List.foldl_cons, hc]
  have : ∀ (l : List Char),
      List.foldl
        (fun acc c =>
          match acc, digitVal? c with
          | some a, some d => some (a * 10 + d)
          | _, _ => none)
        none l = none := by
    intro l
    induction l with
    | nil => rfl
    | cons x xs ih => simpa using ih
  exact this l

theorem parseI64_mapDigits (ds : List Nat) (hne : ds ≠ []) (hd : ∀ d ∈ ds, d < 10)
    (hv : (Nat.ofDigits 10 ds.reverse : Int) ≤ I64_MAX) :
    parseI64 (ds.map fun d => Char.ofNat (48 + d)) =
      some ((Nat.ofDigits 10 ds.reverse : Nat) : Int) := by
  rcases ds with _ | ⟨d, rest⟩
  · exact absurd rfl hne
  · have hd0 : d < 10 := hd d (by simp)
    simp only [List.map_cons]
    rw [parseI64]
    rw [if_neg (by
      intro hplus
      have h1 := charOfNat_digit_toNat d hd0
      rw [hplus] at h1
      have h2 : ('+' : Char).toNat = 43 := rfl
      omega)]
    rw [if_neg (by
      intro hminus
      have h1 := charOfNat_digit_toNat d hd0
      rw [hminus] at h1
      have h2 : ('-' : Char).toNat = 45 := rfl
      omega)]
    have hp := parseNatDigits_mapDigits (d :: rest) (by simp) hd
    simp only [List.map_cons] at hp
    rw [hp, Option.some_bind]
    split_ifs with hcond
    · rfl
    · exact absurd (by exact_mod_cast hv) hcond

theorem position_append_dot (pre post : List Char) (hpre : ∀ c ∈ pre, c ≠ '.') :
    position (· == '.') (pre ++ '.' :: post) = some pre.length := by
  induction pre with
  | nil => simp [position]
  | cons c t ih =>
    have hc : (c == '.') = false := by
      simpa using hpre c (by simp)
    simp only [List.cons_append, position, hc, if_false, List.append_eq]
    rw [ih (fun x hx => hpre x (by simp [hx]))]
    rfl

theorem vecSwap_cons (c : Char) (l : List Char) (i j : Nat) :
    vecSwap (c :: l) (i + 1) (j + 1) = c :: vecSwap l i j := rfl

/-- Net effect of `Cents::from_str`'s swap/truncate sequence: the first two
characters after the decimal point move in front of it and everything from
the (shifted) point on is discarded. -/
theorem shiftDecimal_spec (pre post : List Char) (hpre : ∀ c ∈ pre, c ≠ '.')
    (hlen : 2 ≤ post.length) :
    shiftDecimal (pre ++ '.' :: post) = pre ++ post.take 2 := by
  induction pre with
  | nil =>
    rcases post with _ | ⟨p1, rest⟩
    · simp at hlen
    rcases rest with _ | ⟨p2, rest2⟩
    · simp at hlen
    rfl
  | cons c t ih =>
    rw [shiftDecimal, position_append_dot (c :: t) post hpre]
    simp only [List.length_cons, List.cons_append]
    rw [show t.length + 1 + 1 = (t.length + 1) + 1 from rfl]
    rw [show t.length + 1 + 2 = (t.length + 2) + 1 from rfl]
    rw [vecSwap_cons c (t ++ '.' :: post) t.length (t.length + 1)]
    rw [show t.length + 1 + 1 = (t.length + 1) + 1 from rfl]
    rw [vecSwap_cons c _ (t.length + 1) (t.length + 2)]
    rw [show t.length + 1 + 2 = (t.length + 2) + 1 from rfl]
    rw [List.take_succ_cons]
    have hfold :
        List.take (t.length + 2)
            (vecSwap (vecSwap (t ++ '.' :: post) t.length (t.length + 1))
              (t.length + 1) (t.length + 2)) =
          shiftDecimal (t ++ '.' :: post) := by
      rw [shiftDecimal, position_append_dot t post (fun x hx => hpre x (by simp [hx]))]
    rw [hfold, ih (fun x hx => hpre x (by simp [hx]))]

theorem stripCommas_map (l : List Nat) (hl : ∀ b ∈ l, b = 44 ∨ (48 ≤ b ∧ b ≤ 57)) :
    stripCommas (l.map Char.ofNat) = (l.filter (· ≠ 44)).map Char.ofNat := by
  unfold stripCommas
  rw [List.filter_map]
  congr 1
  apply List.filter_congr
  intro b hb
  rcases hl b hb with h44 | ⟨hlo, hhi⟩
  · subst h44; decide
  · simp only [Function.comp_apply, decide_eq_decide]
    constructor
    · intro _; omega
    · intro _
      intro hcm
      have : (Char.ofNat b).toNat = 44 := by rw [hcm]; rfl
      have : (Char.ofNat b).toNat = b := by interval_cases b <;> decide
      omega

theorem digitChar_ne_dot (d : Nat) (h : d < 10) : Char.ofNat (48 + d) ≠ '.' := by
  interval_cases d <;> decide

theorem not_mem_sixlist (c : Char) (t : List Char)
    (h1 : c ≠ '+') (h2 : c ≠ '-') (h3 : c ≠ '.') :
    ¬ ((c :: t) ∈ ([[], ['+'], ['-'], ['.'], ['+', '.'], ['-', '.']] : List (List Char))) := by
  intro hm
  simp only [List.mem_cons, List.mem_singleton] at hm
  rcases hm with h | h | h | h | h | h | h
  · exact List.cons_ne_nil c t h
  · exact h1 (List.head_eq_of_cons_eq h)
  · exact h2 (List.head_eq_of_cons_eq h)
  · exact h3 (List.head_eq_of_cons_eq h)
  · exact h1 (List.head_eq_of_cons_eq h)
  · exact h2 (List.head_eq_of_cons_eq h)
  · exact absurd h (by simp)

theorem digitChar_ne_comma (d : Nat) (h : d < 10) : Char.ofNat (48 + d) ≠ ',' := by
  interval_cases d <;> decide

theorem sixlist_not_mem_digits (ds : List Nat) (hne : ds ≠ []) (hd : ∀ d ∈ ds, d < 10)
    (tail : List Char) :
    ¬ ((ds.map fun d => Char.ofNat (48 + d)) ++ tail ∈
        ([[], ['+'], ['-'], ['.'], ['+', '.'], ['-', '.']] : List (List Char))) := by
  rcases ds with _ | ⟨d, rest⟩
  · exact absurd rfl hne
  · have hd0 : d < 10 := hd d (by simp)
    simp only [List.map_cons, List.cons_append]
    apply not_mem_sixlist
    · intro hc
      have := charOfNat_digit_toNat d hd0
      rw [hc] at this
      have h2 : ('+' : Char).toNat = 43 := rfl
      omega
    · intro hc
      have := charOfNat_digit_toNat d hd0
      rw [hc] at this
      have h2 : ('-' : Char).toNat = 45 := rfl
      omega
    · exact digitChar_ne_dot d hd0

/-- Round-trip for non-negative values: the rendered string parses back. -/
theorem centsFromStr_toString_nonneg (n : Int) (h0 : 0 ≤ n) (h2 : n ≤ I64_MAX) :
    centsFromStr (centsToString n) = some n := by
  set na := n.toNat with hna
  set f : Nat → Char := fun d => Char.ofNat (48 + d) with hf
  set D3 := Nat.digits 10 (na / 1000) with hD3
  have hD3lt : ∀ d ∈ D3, d < 10 := fun d hd => Nat.digits_lt_base (by norm_num) hd
  -- the rendered character list
  have hchars : (centsToString n).toList =
      ((displayLoop ((na / 1000 : Nat) : Int) 1).reverse.map Char.ofNat) ++
        [f (na / 100 % 10), '.', f (na / 10 % 10), f (na % 10)] := by
    show ((centsToBytes n).map Char.ofNat) = _
    rw [centsToBytes_nonneg n h0]
    rw [List.map_append, List.map_reverse]
    rfl
  -- commas stripped
  have hstrip : stripCommas (centsToString n).toList =
      ((D3.reverse ++ [na / 100 % 10]).map f) ++ '.' :: ([na / 10 % 10, na % 10].map f) := by
    rw [hchars]
    unfold stripCommas
    rw [List.filter_append]
    have hrev : List.filter (· ≠ ',') ((displayLoop ((na / 1000 : Nat) : Int) 1).reverse.map Char.ofNat) =
        (D3.reverse.map (48 + ·)).map Char.ofNat := by
      have hmem : ∀ b ∈ (displayLoop ((na / 1000 : Nat) : Int) 1).reverse,
          b = 44 ∨ (48 ≤ b ∧ b ≤ 57) := by
        intro b hb
        exact displayLoop_mem (na / 1000) 1 b (List.mem_reverse.1 hb)
      have := stripCommas_map _ hmem
      unfold stripCommas at this
      rw [this]
      rw [List.filter_reverse, displayLoop_filter]
      simp [List.map_reverse, hD3]
    rw [hrev]
    have htail : List.filter (· ≠ ',')
        [f (na / 100 % 10), '.', f (na / 10 % 10), f (na % 10)] =
        [f (na / 100 % 10), '.', f (na / 10 % 10), f (na % 10)] := by
      have c2 := digitChar_ne_comma (na / 100 % 10) (by omega)
      have c1 := digitChar_ne_comma (na / 10 % 10) (by omega)
      have c0 := digitChar_ne_comma (na % 10) (by omega)
      simp [hf, c2, c1, c0]
    rw [htail]
    rw [List.map_append]
    simp only [List.map_map, List.map_cons, List.map_nil]
    rw [List.append_assoc]
    congr 1
  -- assemble
  have hsix : ¬ (stripCommas (centsToString n).toList ∈
      ([[], ['+'], ['-'], ['.'], ['+', '.'], ['-', '.']] : List (List Char))) := by
    rw [hstrip]
    rw [show ((D3.reverse ++ [na / 100 % 10]).map f) ++ '.' :: ([na / 10 % 10, na % 10].map f) =
        ((D3.reverse ++ [na / 100 % 10]).map f) ++ ('.' :: ([na / 10 % 10, na % 10].map f)) from rfl]
    apply sixlist_not_mem_digits
    · simp
    · intro d hd
      rcases List.mem_append.1 hd with h | h
      · exact hD3lt d (List.mem_reverse.1 h)
      · simp at h; omega
  unfold centsFromStr
  dsimp only
  rw [if_neg hsix]
  rw [hstrip]
  have hshift : shiftDecimal ((((D3.reverse ++ [na / 100 % 10]).map f) ++
      '.' :: ([na / 10 % 10, na % 10].map f)) ++ ['0', '0']) =
      ((D3.reverse ++ [na / 100 % 10]) ++ [na / 10 % 10, na % 10]).map f := by
    rw [List.append_assoc, List.cons_append]
    rw [shiftDecimal_spec]
    · simp only [List.map_append, List.map_cons, List.map_nil, List.append_assoc]
      rfl
    · intro c hc
      rcases List.mem_map.1 hc with ⟨d, hd, hcd⟩
      have hdlt : d < 10 := by
        rcases List.mem_append.1 hd with h | h
        · exact hD3lt d (List.mem_reverse.1 h)
        · simp at h; omega
      rw [← hcd]
      exact digitChar_ne_dot d hdlt
    · simp
  rw [hshift]
  rw [parseI64_mapDigits]
  · congr 1
    have : Nat.ofDigits 10 (((D3.reverse ++ [na / 100 % 10]) ++ [na / 10 % 10, na % 10]).reverse) = na := by
      rw [List.reverse_append, List.reverse_append]
      simp only [List.reverse_cons, List.reverse_nil, List.nil_append, List.reverse_reverse,
        List.cons_append, List.singleton_append]
      rw [Nat.ofDigits_cons, Nat.ofDigits_cons, Nat.ofDigits_cons]
      rw [hD3, Nat.ofDigits_digits]
      omega
    have habs : ∀ X : Nat, X = na → (X : Int) = n := by
      intro X hX
      subst hX
      omega
    exact habs _ this
  · simp
  · intro d hd
    rcases List.mem_append.1 hd with h | h
    · rcases List.mem_append.1 h with h' | h'
      · exact hD3lt d (List.mem_reverse.1 h')
      · simp at h'; omega
    · simp at h; omega
  · have : Nat.ofDigits 10 (((D3.reverse ++ [na / 100 % 10]) ++ [na / 10 % 10, na % 10]).reverse) = na := by
      rw [List.reverse_append, List.reverse_append]
      simp only [List.reverse_cons, List.reverse_nil, List.nil_append, List.reverse_reverse,
        List.cons_append, List.singleton_append]
      rw [Nat.ofDigits_cons, Nat.ofDigits_cons, Nat.ofDigits_cons]
      rw [hD3, Nat.ofDigits_digits]
      omega
    have habs : ∀ X : Nat, X = na → (X : Int) ≤ I64_MAX := by
      intro X hX
      subst hX
      rw [I64_MAX_eq] at h2 ⊢
      omega
    exact_mod_cast habs _ this

/-- Negative values do not round-trip: `from_str` has no parenthesis
handling, so parsing the rendered `(…)` form fails. -/
theorem centsFromStr_toString_neg (n : Int) (h1 : I64_MIN < n) (h2 : n < 0) :
    centsFromStr (centsToString n) = none := by
  set nb := n.natAbs with hnb
  set f : Nat → Char := fun d => Char.ofNat (48 + d) with hf
  set D3 := Nat.digits 10 (nb / 1000) with hD3
  have hD3lt : ∀ d ∈ D3, d < 10 := fun d hd => Nat.digits_lt_base (by norm_num) hd
  have hchars : (centsToString n).toList =
      '(' :: (((displayLoop ((nb / 1000 : Nat) : Int) 1).reverse.map Char.ofNat) ++
        [f (nb / 100 % 10), '.', f (nb / 10 % 10), f (nb % 10)]) ++ [')'] := by
    show ((centsToBytes n).map Char.ofNat) = _
    rw [centsToBytes_neg n h1 h2]
    simp only [List.map_cons, List.map_append, List.map_reverse]
    rfl
  have hstrip : stripCommas (centsToString n).toList =
      '(' :: (((D3.reverse ++ [nb / 100 % 10]).map f) ++ '.' :: ([nb / 10 % 10, nb % 10].map f)) ++ [')'] := by
    rw [hchars]
    unfold stripCommas
    rw [show ('(' :: (((displayLoop ((nb / 1000 : Nat) : Int) 1).reverse.map Char.ofNat) ++
        [f (nb / 100 % 10), '.', f (nb / 10 % 10), f (nb % 10)]) ++ [')'] : List Char) =
        ['('] ++ ((((displayLoop ((nb / 1000 : Nat) : Int) 1).reverse.map Char.ofNat) ++
        [f (nb / 100 % 10), '.', f (nb / 10 % 10), f (nb % 10)]) ++ [')']) from rfl]
    rw [List.filter_append, List.filter_append, List.filter_append]
    have hparenL : List.filter (· ≠ ',') ['('] = ['('] := by decide
    have hparenR : List.filter (· ≠ ',') [')'] = [')'] := by decide
    rw [hparenL, hparenR]
    have hrev : List.filter (· ≠ ',') ((displayLoop ((nb / 1000 : Nat) : Int) 1).reverse.map Char.ofNat) =
        (D3.reverse.map (48 + ·)).map Char.ofNat := by
      have hmem : ∀ b ∈ (displayLoop ((nb / 1000 : Nat) : Int) 1).reverse,
          b = 44 ∨ (48 ≤ b ∧ b ≤ 57) := by
        intro b hb
        exact displayLoop_mem (nb / 1000) 1 b (List.mem_reverse.1 hb)
      have := stripCommas_map _ hmem
      unfold stripCommas at this
      rw [this]
      rw [List.filter_reverse, displayLoop_filter]
      simp [List.map_reverse, hD3]
    rw [hrev]
    have htail : List.filter (· ≠ ',')
        [f (nb / 100 % 10), '.', f (nb / 10 % 10), f (nb % 10)] =
        [f (nb / 100 % 10), '.', f (nb / 10 % 10), f (nb % 10)] := by
      have c2 := digitChar_ne_comma (nb / 100 % 10) (by omega)
      have c1 := digitChar_ne_comma (nb / 10 % 10) (by omega)
      have c0 := digitChar_ne_comma (nb % 10) (by omega)
      simp [hf, c2, c1, c0]
    rw [htail]
    simp [hf, List.map_map, Function.comp_def, List.append_assoc]
  have hsix : ¬ (stripCommas (centsToString n).toList ∈
      ([[], ['+'], ['-'], ['.'], ['+', '.'], ['-', '.']] : List (List Char))) := by
    rw [hstrip]
    exact not_mem_sixlist '(' _ (by decide) (by decide) (by decide)
  unfold centsFromStr
  dsimp only
  rw [if_neg hsix]
  rw [hstrip]
  have hshift : shiftDecimal (('(' :: (((D3.reverse ++ [nb / 100 % 10]).map f) ++
      '.' :: ([nb / 10 % 10, nb % 10].map f)) ++ [')']) ++ ['0', '0']) =
      ('(' :: ((D3.reverse ++ [nb / 100 % 10]).map f)) ++ [f (nb / 10 % 10), f (nb % 10)] := by
    have hre : ('(' :: (((D3.reverse ++ [nb / 100 % 10]).map f) ++
        '.' :: ([nb / 10 % 10, nb % 10].map f)) ++ [')']) ++ ['0', '0'] =
        ('(' :: ((D3.reverse ++ [nb / 100 % 10]).map f)) ++
          '.' :: (([nb / 10 % 10, nb % 10].map f) ++ [')', '0', '0']) := by
      simp [List.append_assoc]
    rw [hre]
    rw [shiftDecimal_spec]
    · rfl
    · intro c hc
      rcases List.mem_cons.1 hc with h | h
      · subst h; decide
      · rcases List.mem_map.1 h with ⟨d, hd, hcd⟩
        have hdlt : d < 10 := by
          rcases List.mem_append.1 hd with h' | h'
          · exact hD3lt d (List.mem_reverse.1 h')
          · simp at h'; omega
        rw [← hcd]
        exact digitChar_ne_dot d hdlt
    · simp
  rw [hshift]
  rw [show ('(' :: ((D3.reverse ++ [nb / 100 % 10]).map f)) ++ [f (nb / 10 % 10), f (nb % 10)] =
      '(' :: (((D3.reverse ++ [nb / 100 % 10]).map f) ++ [f (nb / 10 % 10), f (nb % 10)]) from rfl]
  rw [parseI64]
  rw [if_neg (by decide), if_neg (by decide)]
  rw [parseNatDigits_head_none '(' _ (by decide)]
  rfl

unseal displayLoop in
theorem centsFromStr_toString_min : centsFromStr (centsToString I64_MIN) = none := by decide

unseal displayLoop in
/-- C1 counterexample: the claim fails at `Cents(-123)` — its rendering
`"(1.23)"` does not parse back (no parenthesis handling in `from_str`). -/
theorem C1_counterexample :
    ¬ (centsFromStr (centsToString (-123)) = some (-123)) := by
  decide

/-- C1 (amended): `Cents::from_str ∘ Cents::to_string` is the identity on
every non-negative representable value, but fails (returns `None`) on the
parenthesised rendering of every negative value, `i64::MIN` included. -/
theorem C1_cents_roundtrip (n m : Int) (hn0 : 0 ≤ n) (hnMax : n ≤ I64_MAX)
    (hmMin : I64_MIN ≤ m) (hm0 : m < 0) :
    centsFromStr (centsToString n) = some n ∧
      centsFromStr (centsToString m) = none := by
  refine ⟨centsFromStr_toString_nonneg n hn0 hnMax, ?_⟩
  rcases eq_or_lt_of_le hmMin with h | h
  · rw [← h]
    exact centsFromStr_toString_min
  · exact centsFromStr_toString_neg m h hm0

theorem C1_cents_roundtrip_witness :
    (0 ≤ (12345 : Int) ∧ (12345 : Int) ≤ I64_MAX ∧
      I64_MIN ≤ (-123 : Int) ∧ (-123 : Int) < 0) ∧
      (centsFromStr (centsToString 12345) = some 12345 ∧
        centsFromStr (centsToString (-123)) = none) :=
  ⟨by decide, C1_cents_roundtrip 12345 (-123) (by decide) (by decide) (by decide) (by decide)⟩

/-- C8: for every `i64` value, `charlen` equals the length in characters of
the rendered display string, and `charlen_for_alignment` adds one exactly
for non-negative values. -/
theorem C8_charlen_spec (n : Int) (h1 : I64_MIN ≤ n) (h2 : n ≤ I64_MAX) :
    charlen n = (centsToString n).length ∧
      charlen_for_alignment n = charlen n + (if 0 ≤ n then 1 else 0) := by
  constructor
  · have hlen : (centsToString n).length = (centsToBytes n).length := by
      show ((centsToBytes n).map Char.ofNat).length = _
      rw [List.length_map]
    rw [hlen]
    exact charlen_eq_bytes_length n h1 h2
  · rfl

unseal displayLoop countDigitsAux in
theorem C8_charlen_spec_witness :
    (I64_MIN ≤ (-123456789 : Int) ∧ (-123456789 : Int) ≤ I64_MAX) ∧
      (charlen (-123456789) = (centsToString (-123456789)).length ∧
        charlen_for_alignment (-123456789) = charlen (-123456789) +
          (if 0 ≤ (-123456789 : Int) then 1 else 0)) :=
  ⟨by decide, C8_charlen_spec (-123456789) (by decide) (by decide)⟩

/-- C10: `Cents::from_str` deletes every comma before any other processing,
so parsing any string gives the same result as parsing it with all commas
removed; e.g. `"-,,1,23,,4.5,,,6,7"` parses to `-123456` cents. -/
theorem C10_comma_stripping (s : String) :
    centsFromStr (⟨stripCommas s.toList⟩ : String) = centsFromStr s ∧
      centsFromStr "-,,1,23,,4.5,,,6,7" = some (-123456) := by
  constructor
  · unfold centsFromStr
    dsimp only
    have hidem : stripCommas (⟨stripCommas s.toList⟩ : String).toList = stripCommas s.toList := by
      show stripCommas (stripCommas s.toList) = stripCommas s.toList
      unfold stripCommas
      rw [List.filter_filter]
      apply List.filter_congr
      intro c _
      simp
    rw [hidem]
  · decide

/-! ### Calendar order lemmas -/

theorem Date.lt_iff (a b : Date) :
    Date.lt a b = true ↔
      a.year < b.year ∨ (a.year = b.year ∧
        (a.month < b.month ∨ (a.month = b.month ∧ a.day < b.day))) := by
  unfold Date.lt
  simp [Bool.or_eq_true, Bool.and_eq_true]

theorem Date.le_iff (a b : Date) :
    Date.le a b = true ↔
      a.year < b.year ∨ (a.year = b.year ∧
        (a.month < b.month ∨ (a.month = b.month ∧ a.day ≤ b.day))) := by
  unfold Date.le
  rw [Bool.not_eq_true', Bool.eq_false_iff, Ne, Date.lt_iff]
  omega

/-! ### Month-length and day-count lemmas -/

theorem daysInMonth_pos (y m : Nat) (h1 : 1 ≤ m) (h2 : m ≤ 12) :
    28 ≤ daysInMonth y m ∧ daysInMonth y m ≤ 31 := by
  unfold daysInMonth
  interval_cases m <;> cases h : isLeapYear y <;> simp [h, monthLengths]

theorem daysBeforeMonth_succ (y m : Nat) :
    daysBeforeMonth y (m + 1) = daysBeforeMonth y m + daysInMonth y m := by
  unfold daysBeforeMonth
  rw [List.range_succ, List.map_append, List.sum_append]
  simp

theorem daysBeforeMonth_mono (y : Nat) {m m' : Nat} (h : m ≤ m') :
    daysBeforeMonth y m ≤ daysBeforeMonth y m' := by
  induction m' with
  | zero =>
    have : m = 0 := by omega
    simp [this]
  | succ k ih =>
    rcases Nat.lt_or_ge m (k + 1) with h' | h'
    · have := ih (by omega)
      rw [daysBeforeMonth_succ]
      omega
    · have hm : m = k + 1 := by omega
      simp [hm]

theorem isLeapYear_iff (y : Nat) :
    isLeapYear y = true ↔ (y % 4 = 0 ∧ (y % 100 ≠ 0 ∨ y % 400 = 0)) := by
  unfold isLeapYear
  simp [Bool.and_eq_true, Bool.or_eq_true]

theorem daysInYear (y : Nat) :
    daysBeforeMonth y 13 = 365 + (if isLeapYear y then 1 else 0) := by
  unfold daysBeforeMonth
  cases h : isLeapYear y <;>
    simp [List.range_succ, daysInMonth, monthLengths, h]

theorem leapsBefore_succ (y : Nat) :
    leapsBefore (y + 1) = leapsBefore y + (if isLeapYear y then 1 else 0) := rfl

theorem daysBeforeYear_succ (y : Nat) :
    daysBeforeYear (y + 1) = daysBeforeYear y + daysBeforeMonth y 13 := by
  unfold daysBeforeYear
  rw [leapsBefore_succ, daysInYear]
  ring

theorem daysBeforeYear_mono {y y' : Nat} (h : y ≤ y') :
    daysBeforeYear y ≤ daysBeforeYear y' := by
  induction y' with
  | zero =>
    have : y = 0 := by omega
    simp [this]
  | succ k ih =>
    rcases Nat.lt_or_ge y (k + 1) with h' | h'
    · have := ih (by omega)
      rw [daysBeforeYear_succ]
      omega
    · have hy : y = k + 1 := by omega
      simp [hy]

theorem dateValid_iff (y m d : Nat) :
    dateValid y m d = true ↔
      1 ≤ m ∧ m ≤ 12 ∧ 1 ≤ d ∧ d ≤ daysInMonth y m ∧ y ≤ 9999 := by
  unfold dateValid
  simp [Bool.and_eq_true]
  tauto

theorem rata_lt_next_year (dt : Date) (hv : dateValid dt.year dt.month dt.day = true) :
    rata dt < daysBeforeYear (dt.year + 1) := by
  rw [dateValid_iff] at hv
  obtain ⟨h1, h2, h3, h4, h5⟩ := hv
  rw [daysBeforeYear_succ]
  unfold rata
  have hstep : daysBeforeMonth dt.year (dt.month + 1) =
      daysBeforeMonth dt.year dt.month + daysInMonth dt.year dt.month :=
    daysBeforeMonth_succ _ _
  have hmono : daysBeforeMonth dt.year (dt.month + 1) ≤ daysBeforeMonth dt.year 13 :=
    daysBeforeMonth_mono _ (by omega)
  omega

theorem daysBeforeYear_le_rata (dt : Date) :
    daysBeforeYear dt.year ≤ rata dt := by
  unfold rata
  omega

/-- `rata` is strictly monotone with respect to the chronological order on
valid dates. -/
theorem rata_lt_of_lt (a b : Date)
    (hva : dateValid a.year a.month a.day = true)
    (hvb : dateValid b.year b.month b.day = true)
    (hab : Date.lt a b = true) : rata a < rata b := by
  rw [Date.lt_iff] at hab
  rw [dateValid_iff] at hva hvb
  rcases hab with hy | ⟨hy, hrest⟩
  · have h1 : rata a < daysBeforeYear (a.year + 1) :=
      rata_lt_next_year a (by rw [dateValid_iff]; tauto)
    have h2 : daysBeforeYear (a.year + 1) ≤ daysBeforeYear b.year :=
      daysBeforeYear_mono (by omega)
    have h3 := daysBeforeYear_le_rata b
    omega
  · rcases hrest with hm | ⟨hm, hd⟩
    · have h1 : daysBeforeMonth a.year (a.month + 1) =
          daysBeforeMonth a.year a.month + daysInMonth a.year a.month :=
        daysBeforeMonth_succ _ _
      have h2 : daysBeforeMonth a.year (a.month + 1) ≤ daysBeforeMonth a.year b.month :=
        daysBeforeMonth_mono _ (by omega)
      unfold rata
      rw [← hy]
      obtain ⟨_, _, hd1, hd2, _⟩ := hva
      obtain ⟨_, _, hd3, _, _⟩ := hvb
      omega
    · unfold rata
      rw [← hy, ← hm]
      obtain ⟨_, _, hd1, _, _⟩ := hva
      omega

/-- Valid dates with equal rank are equal. -/
theorem rata_inj (a b : Date)
    (hva : dateValid a.year a.month a.day = true)
    (hvb : dateValid b.year b.month b.day = true)
    (h : rata a = rata b) : a = b := by
  by_cases hlt : Date.lt a b = true
  · have := rata_lt_of_lt a b hva hvb hlt
    omega
  · by_cases hgt : Date.lt b a = true
    · have := rata_lt_of_lt b a hvb hva hgt
      omega
    · rw [Date.lt_iff] at hlt hgt
      have ha := (dateValid_iff _ _ _).mp hva
      have hb := (dateValid_iff _ _ _).mp hvb
      rcases a with ⟨ay, am, ad⟩
      rcases b with ⟨by_, bm, bd⟩
      simp only at hlt hgt ⊢
      congr 1 <;> omega

theorem rata_le_of_le (a b : Date)
    (hva : dateValid a.year a.month a.day = true)
    (hvb : dateValid b.year b.month b.day = true)
    (hab : Date.le a b = true) : rata a ≤ rata b := by
  unfold Date.le at hab
  rw [Bool.not_eq_true', Bool.eq_false_iff] at hab
  by_cases hlt : Date.lt a b = true
  · exact le_of_lt (rata_lt_of_lt a b hva hvb hlt)
  · rw [Date.lt_iff] at hlt
    have hgt : ¬ (Date.lt b a = true) := hab
    rw [Date.lt_iff] at hgt
    rcases a with ⟨ay, am, ad⟩
    rcases b with ⟨by_, bm, bd⟩
    simp only at hlt hgt
    unfold rata
    simp only
    have : ay = by_ ∧ am = bm ∧ ad = bd := by omega
    obtain ⟨h1, h2, h3⟩ := this
    subst h1; subst h2; subst h3
    omega

/-- The in-bounds successor: validity, rank `+1`, and failure exactly at
`Date::MAX`. -/
theorem nextDayOpt_spec (dt : Date) (hv : dateValid dt.year dt.month dt.day = true) :
    (∀ e, nextDayOpt dt = some e →
        dateValid e.year e.month e.day = true ∧ rata e = rata dt + 1) ∧
      (nextDayOpt dt = none ↔ dt = Date.MAX) := by
  rw [dateValid_iff] at hv
  obtain ⟨h1, h2, h3, h4, h5⟩ := hv
  unfold nextDayOpt
  by_cases hday : dt.day < daysInMonth dt.year dt.month
  · rw [if_pos hday]
    constructor
    · rintro e rfl1
      cases rfl1
      constructor
      · rw [dateValid_iff]
        simp only
        omega
      · unfold rata
        simp only
        omega
    · constructor
      · intro h; cases h
      · intro h
        exfalso
        have : dt.day = 31 := by rw [h]; rfl
        have hd12 : dt.month = 12 := by rw [h]; rfl
        have := (daysInMonth_pos dt.year dt.month h1 h2).2
        omega
  · rw [if_neg hday]
    have hdeq : dt.day = daysInMonth dt.year dt.month := by omega
    by_cases hm : dt.month < 12
    · rw [if_pos hm]
      constructor
      · rintro e rfl1
        cases rfl1
        constructor
        · rw [dateValid_iff]
          simp only
          have := (daysInMonth_pos dt.year (dt.month + 1) (by omega) (by omega)).1
          omega
        · unfold rata
          simp only
          have hstep := daysBeforeMonth_succ dt.year dt.month
          omega
      · constructor
        · intro h; cases h
        · intro h
          exfalso
          have : dt.month = 12 := by rw [h]; rfl
          omega
    · rw [if_neg hm]
      have hm12 : dt.month = 12 := by omega
      by_cases hy : dt.year < 9999
      · rw [if_pos hy]
        constructor
        · rintro e rfl1
          cases rfl1
          constructor
          · rw [dateValid_iff]
            simp only
            have := (daysInMonth_pos (dt.year + 1) 1 (by omega) (by omega)).1
            omega
          · unfold rata
            simp only
            rw [daysBeforeYear_succ]
            have h13 : daysBeforeMonth dt.year 13 =
                daysBeforeMonth dt.year 12 + daysInMonth dt.year 12 :=
              daysBeforeMonth_succ _ _
            have hdE : daysBeforeMonth (dt.year + 1) 1 = 0 := by
              simp [daysBeforeMonth, List.range_succ, List.range_zero, daysInMonth, monthLengths]
            have hd31 : daysInMonth dt.year 12 = 31 := by
              unfold daysInMonth monthLengths
              simp [isLeapYear]
            rw [hdE, hm12]
            rw [hm12] at hdeq
            omega
        · constructor
          · intro h; cases h
          · intro h
            exfalso
            have : dt.year = 9999 := by rw [h]; rfl
            omega
      · rw [if_neg hy]
        constructor
        · intro e h; cases h
        · constructor
          · intro _
            have hy9 : dt.year = 9999 := by omega
            have hd31 : daysInMonth dt.year 12 = 31 := by
              unfold daysInMonth monthLengths
              simp [isLeapYear]
            rcases dt with ⟨dy, dm, dd⟩
            simp only at *
            subst hy9 hm12
            rw [hd31] at hdeq
            subst hdeq
            rfl
          · intro _; rfl

/-- The in-bounds predecessor: validity, rank `-1`, failure exactly at
`Date::MIN`. -/
theorem prevDayOpt_spec (dt : Date) (hv : dateValid dt.year dt.month dt.day = true) :
    (∀ e, prevDayOpt dt = some e →
        dateValid e.year e.month e.day = true ∧ rata e + 1 = rata dt) ∧
      (prevDayOpt dt = none ↔ dt = Date.MIN) := by
  rw [dateValid_iff] at hv
  obtain ⟨h1, h2, h3, h4, h5⟩ := hv
  unfold prevDayOpt
  by_cases hday : 1 < dt.day
  · rw [if_pos hday]
    constructor
    · rintro e rfl1
      cases rfl1
      refine ⟨by rw [dateValid_iff]; simp only; omega, ?_⟩
      unfold rata
      simp only
      omega
    · constructor
      · intro h; cases h
      · intro h
        exfalso
        have : dt.day = 1 := by rw [h]; rfl
        omega
  · rw [if_neg hday]
    have hd1 : dt.day = 1 := by omega
    by_cases hm : 1 < dt.month
    · rw [if_pos hm]
      constructor
      · rintro e rfl1
        cases rfl1
        constructor
        · rw [dateValid_iff]
          simp only
          have := (daysInMonth_pos dt.year (dt.month - 1) (by omega) (by omega)).1
          omega
        · unfold rata
          simp only
          have hstep : daysBeforeMonth dt.year (dt.month - 1 + 1) =
              daysBeforeMonth dt.year (dt.month - 1) + daysInMonth dt.year (dt.month - 1) :=
            daysBeforeMonth_succ _ _
          have hm1 : dt.month - 1 + 1 = dt.month := by omega
          rw [hm1] at hstep
          have := (daysInMonth_pos dt.year (dt.month - 1) (by omega) (by omega)).1
          omega
      · constructor
        · intro h; cases h
        · intro h
          exfalso
          have : dt.month = 1 := by rw [h]; rfl
          omega
    · rw [if_neg hm]
      have hm1 : dt.month = 1 := by omega
      by_cases hy : 0 < dt.year
      · rw [if_pos hy]
        constructor
        · rintro e rfl1
          cases rfl1
          constructor
          · rw [dateValid_iff]
            simp only
            have hd31 : daysInMonth (dt.year - 1) 12 = 31 := by
              simp [daysInMonth, monthLengths]
            omega
          · unfold rata
            simp only
            have hy1 : dt.year - 1 + 1 = dt.year := by omega
            have hstepY := daysBeforeYear_succ (dt.year - 1)
            rw [hy1] at hstepY
            have h13 : daysBeforeMonth (dt.year - 1) 13 =
                daysBeforeMonth (dt.year - 1) 12 + daysInMonth (dt.year - 1) 12 :=
              daysBeforeMonth_succ _ _
            have hd31 : daysInMonth (dt.year - 1) 12 = 31 := by
              simp [daysInMonth, monthLengths]
            have hdbm1 : daysBeforeMonth dt.year 1 = 0 := by
              simp [daysBeforeMonth, List.range_succ, List.range_zero, daysInMonth, monthLengths]
            rw [hm1, hdbm1, hd1]
            omega
        · constructor
          · intro h; cases h
          · intro h
            exfalso
            have : dt.year = 0 := by rw [h]; rfl
            omega
      · rw [if_neg hy]
        have hy0 : dt.year = 0 := by omega
        constructor
        · intro e h; cases h
        · constructor
          · intro _
            rcases dt with ⟨dy, dm, dd⟩
            simp only at hd1 hm1 hy0
            subst hd1; subst hm1; subst hy0
            rfl
          · intro _; rfl

theorem dateValid_MAX : dateValid Date.MAX.year Date.MAX.month Date.MAX.day = true := by
  rw [dateValid_iff]
  simp [Date.MAX, daysInMonth, monthLengths, isLeapYear]

theorem dateValid_MIN : dateValid Date.MIN.year Date.MIN.month Date.MIN.day = true := by
  rw [dateValid_iff]
  simp [Date.MIN, daysInMonth, monthLengths, isLeapYear]

theorem rata_le_MAX (dt : Date) (hv : dateValid dt.year dt.month dt.day = true) :
    rata dt ≤ rata Date.MAX := by
  have hvs := (dateValid_iff _ _ _).mp hv
  have h31 := (daysInMonth_pos dt.year dt.month (by omega) (by omega)).2
  have hmax : Date.le dt Date.MAX = true := by
    rw [Date.le_iff]
    show dt.year < 9999 ∨ _
    simp only [Date.MAX]
    omega
  exact rata_le_of_le dt Date.MAX hv dateValid_MAX hmax

/-- Iterating the successor `k` times: success is exactly `rata dt + k ≤
rata Date.MAX`, and on success the result is valid with rank `rata dt + k`. -/
theorem stepN_next_spec (k : Nat) (dt : Date) (hv : dateValid dt.year dt.month dt.day = true) :
    (∀ e, stepN nextDayOpt k dt = some e →
        dateValid e.year e.month e.day = true ∧ rata e = rata dt + k) ∧
      ((stepN nextDayOpt k dt).isSome ↔ rata dt + k ≤ rata Date.MAX) := by
  induction k generalizing dt with
  | zero =>
    constructor
    · rintro e rfl1
      cases rfl1
      exact ⟨hv, rfl⟩
    · simp only [stepN, Option.isSome_some, true_iff]
      have := rata_le_MAX dt hv
      omega
  | succ k ih =>
    have hspec := nextDayOpt_spec dt hv
    rcases hnext : nextDayOpt dt with _ | e
    · have hdtmax : dt = Date.MAX := (hspec.2).mp hnext
      constructor
      · intro e h
        rw [stepN, hnext] at h
        cases h
      · rw [stepN, hnext]
        simp only [Option.none_bind, Option.isSome_none]
        constructor
        · intro h; cases h
        · intro h
          exfalso
          rw [hdtmax] at h
          omega
      
    · obtain ⟨hve, hre⟩ := hspec.1 e hnext
      have ihe := ih e hve
      constructor
      · intro e2 h
        rw [stepN, hnext, Option.some_bind] at h
        have hr := ihe.1 e2 h
        exact ⟨hr.1, by omega⟩
      · rw [stepN, hnext, Option.some_bind]
        rw [ihe.2]
        omega

/-- Iterating the predecessor `k` times: success is exactly `k ≤ rata dt`. -/
theorem stepN_prev_spec (k : Nat) (dt : Date) (hv : dateValid dt.year dt.month dt.day = true) :
    (∀ e, stepN prevDayOpt k dt = some e →
        dateValid e.year e.month e.day = true ∧ rata e + k = rata dt) ∧
      ((stepN prevDayOpt k dt).isSome ↔ k ≤ rata dt) := by
  induction k generalizing dt with
  | zero =>
    constructor
    · rintro e rfl1
      cases rfl1
      exact ⟨hv, rfl⟩
    · simp [stepN]
  | succ k ih =>
    have hspec := prevDayOpt_spec dt hv
    rcases hprev : prevDayOpt dt with _ | e
    · have hdtmin : dt = Date.MIN := (hspec.2).mp hprev
      constructor
      · intro e h
        rw [stepN, hprev] at h
        cases h
      · rw [stepN, hprev]
        simp only [Option.none_bind, Option.isSome_none]
        constructor
        · intro h; cases h
        · intro h
          exfalso
          have : rata dt = 0 := by
            rw [hdtmin]
            rfl
          omega
    · obtain ⟨hve, hre⟩ := hspec.1 e hprev
      have ihe := ih e hve
      constructor
      · intro e2 h
        rw [stepN, hprev, Option.some_bind] at h
        have hr := ihe.1 e2 h
        exact ⟨hr.1, by omega⟩
      · rw [stepN, hprev, Option.some_bind]
        rw [ihe.2]
        omega

theorem shiftYm_spec (self : Date) (y m : Nat)
    (hvs : dateValid self.year self.month self.day = true) :
    shiftYm self y m =
      if 1 ≤ m ∧ m ≤ 12 ∧ y ≤ 9999
      then some ⟨y, m, min (daysInMonth y m) self.day⟩
      else none := by
  have hself := (dateValid_iff _ _ _).mp hvs
  unfold shiftYm Date.from_ymd
  by_cases hc : 1 ≤ m ∧ m ≤ 12 ∧ y ≤ 9999
  · have hdimpos := (daysInMonth_pos y m (by omega) (by omega)).1
    rw [if_pos (show dateValid y m 1 = true by rw [dateValid_iff]; omega)]
    dsimp only
    rw [if_pos hc]
    rw [show (Date.last_of ⟨y, m, 1⟩ .month).day = daysInMonth y m from rfl]
    rw [if_pos (show dateValid y m (min (daysInMonth y m) self.day) = true by
      rw [dateValid_iff]; omega)]
  · rw [if_neg (show ¬ (dateValid y m 1 = true) by
      rw [dateValid_iff]; intro h; exact hc ⟨h.1, h.2.1, h.2.2.2.2⟩)]
    rw [if_neg hc]

/-- `Date::shift` with `Datepart::Year`: add `offset` years, clamp the day
to the shifted month's last day, fail exactly when the resulting year
leaves `[0, 9999]`. -/
theorem shift_year_spec (dt : Date) (n : Int)
    (hv : dateValid dt.year dt.month dt.day = true) :
    Date.shift dt .year n =
      if 0 ≤ (dt.year : Int) + n ∧ (dt.year : Int) + n ≤ 9999
      then some ⟨((dt.year : Int) + n).toNat, dt.month,
        min (daysInMonth ((dt.year : Int) + n).toNat dt.month) dt.day⟩
      else none := by
  have hself := (dateValid_iff _ _ _).mp hv
  unfold Date.shift
  dsimp only
  by_cases hneg : (dt.year : Int) + n < 0
  · rw [if_pos hneg, if_neg (by omega)]
  · rw [if_neg hneg]
    rw [shiftYm_spec dt _ _ hv]
    by_cases hble : (dt.year : Int) + n ≤ 9999
    · rw [if_pos (by omega), if_pos (by omega)]
    · rw [if_neg (by omega), if_neg (by omega)]

/-- `Date::shift` with `Datepart::Month`: the source's overflow/underflow
normalisation equals floor division of the total month count
`t = 12·year + (month − 1) + offset`; fails exactly when the resulting
`(year, month)` pair leaves the representable range. -/
theorem shift_month_spec (dt : Date) (n : Int)
    (hv : dateValid dt.year dt.month dt.day = true) :
    Date.shift dt .month n =
      (if 0 ≤ 12 * (dt.year : Int) + ((dt.month : Int) - 1) + n ∧
          12 * (dt.year : Int) + ((dt.month : Int) - 1) + n ≤ 119999
       then
        some ⟨((12 * (dt.year : Int) + ((dt.month : Int) - 1) + n) / 12).toNat,
          ((12 * (dt.year : Int) + ((dt.month : Int) - 1) + n) % 12).toNat + 1,
          min (daysInMonth ((12 * (dt.year : Int) + ((dt.month : Int) - 1) + n) / 12).toNat
            (((12 * (dt.year : Int) + ((dt.month : Int) - 1) + n) % 12).toNat + 1)) dt.day⟩
       else none) := by
  have hself := (dateValid_iff _ _ _).mp hv
  set t : Int := 12 * (dt.year : Int) + ((dt.month : Int) - 1) + n with hT
  set m0 : Int := (dt.month : Int) + n with hM0
  have hm0t : t = 12 * (dt.year : Int) + m0 - 1 := by rw [hT, hM0]; ring
  have htdiv : t / 12 = (dt.year : Int) + (m0 - 1) / 12 := by
    rw [hm0t, show 12 * (dt.year : Int) + m0 - 1 = (m0 - 1) + (dt.year : Int) * 12 by ring,
      Int.add_mul_ediv_right _ _ (by norm_num : (12:Int) ≠ 0)]
    ring
  have htmod : t % 12 = (m0 - 1) % 12 := by
    rw [hm0t, show 12 * (dt.year : Int) + m0 - 1 = (m0 - 1) + (dt.year : Int) * 12 by ring]
    exact Int.add_mul_emod_self
  have hmod0 : 0 ≤ (m0 - 1) % 12 := Int.emod_nonneg _ (by norm_num)
  have hmod12 : (m0 - 1) % 12 < 12 := Int.emod_lt_of_pos _ (by norm_num)
  unfold Date.shift
  dsimp only
  have hym : (if m0 > 12 then
        ((dt.year : Int) + (m0 - 1).tdiv 12, (m0 - 1).tmod 12 + 1)
      else if m0 < 1 then
        ((dt.year : Int) + (m0 - 12).tdiv 12, (m0.tmod 12 + 11).tmod 12 + 1)
      else ((dt.year : Int), m0)) =
      ((dt.year : Int) + (m0 - 1) / 12, (m0 - 1) % 12 + 1) := by
    split_ifs with hgt hlt
    · rw [Int.tdiv_eq_ediv (by omega) (by norm_num),
        Int.tmod_eq_emod (by omega) (by norm_num)]
    · have e1 : (m0 - 12).tdiv 12 = (m0 - 1) / 12 := by
        rw [show m0 - 12 = -(12 - m0) by ring, Int.neg_tdiv,
          Int.tdiv_eq_ediv (by omega) (by norm_num)]
        omega
      have e2 : (m0.tmod 12 + 11).tmod 12 + 1 = (m0 - 1) % 12 + 1 := by
        have ht1 : m0.tmod 12 = m0 - 12 * (m0.tdiv 12) := Int.tmod_def m0 12
        have h1 : m0 = -(-m0) := by ring
        have h2 : m0.tdiv 12 = -((-m0).tdiv 12) := by
          conv_lhs => rw [h1]
          rw [Int.neg_tdiv]
        have h3 : (-m0).tdiv 12 = (-m0) / 12 := Int.tdiv_eq_ediv (by omega) (by norm_num)
        have h4 : (m0.tmod 12 + 11).tmod 12 =
            (m0.tmod 12 + 11) - 12 * ((m0.tmod 12 + 11).tdiv 12) := Int.tmod_def _ _
        have h5 : (m0.tmod 12 + 11).tdiv 12 = (m0.tmod 12 + 11) / 12 := by
          apply Int.tdiv_eq_ediv _ (by norm_num)
          omega
        omega
      rw [e1, e2]
    · have e1 : (m0 - 1) / 12 = 0 := by omega
      have e2 : (m0 - 1) % 12 = m0 - 1 := by omega
      rw [e1, e2]
      refine Prod.ext ?_ ?_
      · simp
      · simp
  rw [hym]
  dsimp only
  by_cases hY : (dt.year : Int) + (m0 - 1) / 12 < 0
  · rw [if_pos hY, if_neg (by omega)]
  · rw [if_neg hY]
    rw [shiftYm_spec dt _ _ hv]
    have hA : ((dt.year : Int) + (m0 - 1) / 12).toNat = (t / 12).toNat := by omega
    have hB : ((m0 - 1) % 12 + 1).toNat = (t % 12).toNat + 1 := by omega
    rw [hA, hB]
    by_cases hcond : 0 ≤ t ∧ t ≤ 119999
    · rw [if_pos (by omega), if_pos hcond]
    · rw [if_neg (by omega), if_neg hcond]

/-- C4: `Date::shift` adds whole years/months/days. Year/month shifts clamp
the day-of-month to the resulting month's last day under the Gregorian leap
rule, and fail exactly when the result leaves `[0000-01-01, 9999-12-31]`;
day shifts move the rank (days since 0000-01-01) by exactly the offset and
fail exactly when the rank leaves `[0, rata Date.MAX]`. The claim's three
concrete month examples are included. -/
theorem C4_date_shift (dt : Date) (n : Int)
    (hv : dateValid dt.year dt.month dt.day = true) :
    (Date.shift dt .year n =
      if 0 ≤ (dt.year : Int) + n ∧ (dt.year : Int) + n ≤ 9999
      then some ⟨((dt.year : Int) + n).toNat, dt.month,
        min (daysInMonth ((dt.year : Int) + n).toNat dt.month) dt.day⟩
      else none) ∧
    (Date.shift dt .month n =
      (if 0 ≤ 12 * (dt.year : Int) + ((dt.month : Int) - 1) + n ∧
          12 * (dt.year : Int) + ((dt.month : Int) - 1) + n ≤ 119999
       then
        some ⟨((12 * (dt.year : Int) + ((dt.month : Int) - 1) + n) / 12).toNat,
          ((12 * (dt.year : Int) + ((dt.month : Int) - 1) + n) % 12).toNat + 1,
          min (daysInMonth ((12 * (dt.year : Int) + ((dt.month : Int) - 1) + n) / 12).toNat
            (((12 * (dt.year : Int) + ((dt.month : Int) - 1) + n) % 12).toNat + 1)) dt.day⟩
       else none)) ∧
    (∀ e, Date.shift dt .day n = some e →
        dateValid e.year e.month e.day = true ∧ (rata e : Int) = (rata dt : Int) + n) ∧
    ((Date.shift dt .day n).isSome ↔
      0 ≤ (rata dt : Int) + n ∧ (rata dt : Int) + n ≤ (rata Date.MAX : Int)) ∧
    (∀ y, isLeapYear y = true ↔ (y % 4 = 0 ∧ (y % 100 ≠ 0 ∨ y % 400 = 0))) ∧
    Date.shift ⟨2015, 3, 30⟩ .month 1 = some ⟨2015, 4, 30⟩ ∧
    Date.shift ⟨2015, 1, 31⟩ .month 1 = some ⟨2015, 2, 28⟩ ∧
    Date.shift ⟨2016, 1, 31⟩ .month 1 = some ⟨2016, 2, 29⟩ := by
  refine ⟨shift_year_spec dt n hv, shift_month_spec dt n hv, ?_, ?_,
    isLeapYear_iff, by decide, by decide, by decide⟩
  · intro e he
    unfold Date.shift at he
    by_cases hn : 0 ≤ n
    · rw [if_pos hn] at he
      obtain ⟨hve, hre⟩ := (stepN_next_spec n.toNat dt hv).1 e he
      exact ⟨hve, by omega⟩
    · rw [if_neg hn] at he
      obtain ⟨hve, hre⟩ := (stepN_prev_spec (-n).toNat dt hv).1 e he
      exact ⟨hve, by omega⟩
  · have hmax := rata_le_MAX dt hv
    unfold Date.shift
    by_cases hn : 0 ≤ n
    · rw [if_pos hn]
      rw [(stepN_next_spec n.toNat dt hv).2]
      omega
    · rw [if_neg hn]
      rw [(stepN_prev_spec (-n).toNat dt hv).2]
      omega

theorem C4_date_shift_witness :
    (dateValid (Date.mk 2015 5 31).year (Date.mk 2015 5 31).month (Date.mk 2015 5 31).day = true) ∧
      ((Date.shift ⟨2015, 5, 31⟩ .day 1).isSome ↔
        0 ≤ (rata ⟨2015, 5, 31⟩ : Int) + 1 ∧
          (rata ⟨2015, 5, 31⟩ : Int) + 1 ≤ (rata Date.MAX : Int)) :=
  ⟨by decide, (C4_date_shift ⟨2015, 5, 31⟩ 1 (by decide)).2.2.2.1⟩

/-! ### Order-rank reflection and min/max lemmas -/

theorem Date.le_iff_not_lt (a b : Date) :
    Date.le a b = true ↔ ¬ (Date.lt b a = true) := by
  unfold Date.le
  cases h : Date.lt b a <;> simp [h]

theorem rata_le_iff (x y : Date)
    (hvx : dateValid x.year x.month x.day = true)
    (hvy : dateValid y.year y.month y.day = true) :
    Date.le x y = true ↔ rata x ≤ rata y := by
  constructor
  · exact rata_le_of_le x y hvx hvy
  · intro h
    rw [Date.le_iff_not_lt]
    intro hlt
    have := rata_lt_of_lt y x hvy hvx hlt
    omega

theorem rata_lt_iff (x y : Date)
    (hvx : dateValid x.year x.month x.day = true)
    (hvy : dateValid y.year y.month y.day = true) :
    Date.lt x y = true ↔ rata x < rata y := by
  constructor
  · exact rata_lt_of_lt x y hvx hvy
  · intro h
    by_cases hlt : Date.lt x y = true
    · exact hlt
    · exfalso
      have hle : Date.le y x = true := by
        rw [Date.le_iff_not_lt]
        exact hlt
      have := rata_le_of_le y x hvy hvx hle
      omega

theorem minD_cases (a b : Date) : Date.minD a b = a ∨ Date.minD a b = b := by
  unfold Date.minD
  split_ifs <;> simp

theorem minD_spec (a b : Date)
    (hva : dateValid a.year a.month a.day = true)
    (hvb : dateValid b.year b.month b.day = true) :
    dateValid (Date.minD a b).year (Date.minD a b).month (Date.minD a b).day = true ∧
      rata (Date.minD a b) = min (rata a) (rata b) := by
  unfold Date.minD
  split_ifs with h
  · have := (rata_le_iff a b hva hvb).mp h
    exact ⟨hva, by omega⟩
  · have hlt : Date.lt b a = true := by
      by_contra hc
      exact h ((Date.le_iff_not_lt a b).mpr hc)
    have := (rata_lt_iff b a hvb hva).mp hlt
    exact ⟨hvb, by omega⟩

theorem maxD_spec (a b : Date)
    (hva : dateValid a.year a.month a.day = true)
    (hvb : dateValid b.year b.month b.day = true) :
    dateValid (Date.maxD a b).year (Date.maxD a b).month (Date.maxD a b).day = true ∧
      rata (Date.maxD a b) = max (rata a) (rata b) := by
  unfold Date.maxD
  split_ifs with h
  · have := (rata_lt_iff b a hvb hva).mp h
    exact ⟨hva, by omega⟩
  · have hle : Date.le a b = true := by
      rw [Date.le_iff_not_lt]
      exact h
    have := (rata_le_iff a b hva hvb).mp hle
    exact ⟨hvb, by omega⟩

/-! ### first_of / last_of lemmas -/

theorem daysInMonth_1 (y : Nat) : daysInMonth y 1 = 31 := by
  simp [daysInMonth, monthLengths]

theorem daysInMonth_12 (y : Nat) : daysInMonth y 12 = 31 := by
  simp [daysInMonth, monthLengths]

theorem first_of_spec (d : Date) (p : Datepart)
    (hv : dateValid d.year d.month d.day = true) :
    dateValid (d.first_of p).year (d.first_of p).month (d.first_of p).day = true ∧
      Date.le (d.first_of p) d = true := by
  have hs := (dateValid_iff _ _ _).mp hv
  cases p with
  | year =>
    constructor
    · rw [dateValid_iff]
      show 1 ≤ 1 ∧ 1 ≤ 12 ∧ 1 ≤ 1 ∧ 1 ≤ daysInMonth d.year 1 ∧ d.year ≤ 9999
      have := daysInMonth_1 d.year
      omega
    · rw [Date.le_iff]
      show d.year < d.year ∨ d.year = d.year ∧ (1 < d.month ∨ 1 = d.month ∧ 1 ≤ d.day)
      omega
  | month =>
    have hp := (daysInMonth_pos d.year d.month (by omega) (by omega)).1
    constructor
    · rw [dateValid_iff]
      show 1 ≤ d.month ∧ d.month ≤ 12 ∧ 1 ≤ 1 ∧ 1 ≤ daysInMonth d.year d.month ∧ d.year ≤ 9999
      omega
    · rw [Date.le_iff]
      show d.year < d.year ∨ d.year = d.year ∧ (d.month < d.month ∨ d.month = d.month ∧ 1 ≤ d.day)
      omega
  | day =>
    have he : d.first_of Datepart.day = d := rfl
    rw [he]
    refine ⟨hv, ?_⟩
    rw [Date.le_iff]
    omega

theorem last_of_spec (d : Date) (p : Datepart)
    (hv : dateValid d.year d.month d.day = true) :
    dateValid (d.last_of p).year (d.last_of p).month (d.last_of p).day = true ∧
      Date.le d (d.last_of p) = true := by
  have hs := (dateValid_iff _ _ _).mp hv
  cases p with
  | year =>
    constructor
    · rw [dateValid_iff]
      show 1 ≤ 12 ∧ 12 ≤ 12 ∧ 1 ≤ 31 ∧ 31 ≤ daysInMonth d.year 12 ∧ d.year ≤ 9999
      have := daysInMonth_12 d.year
      omega
    · rw [Date.le_iff]
      show d.year < d.year ∨ d.year = d.year ∧ (d.month < 12 ∨ d.month = 12 ∧ d.day ≤ 31)
      have h31 := (daysInMonth_pos d.year d.month (by omega) (by omega)).2
      omega
  | month =>
    have hp := daysInMonth_pos d.year d.month (by omega) (by omega)
    constructor
    · rw [dateValid_iff]
      show 1 ≤ d.month ∧ d.month ≤ 12 ∧ 1 ≤ daysInMonth d.year d.month ∧
        daysInMonth d.year d.month ≤ daysInMonth d.year d.month ∧ d.year ≤ 9999
      omega
    · rw [Date.le_iff]
      show d.year < d.year ∨ d.year = d.year ∧
        (d.month < d.month ∨ d.month = d.month ∧ d.day ≤ daysInMonth d.year d.month)
      omega
  | day =>
    have he : d.last_of Datepart.day = d := rfl
    rw [he]
    refine ⟨hv, ?_⟩
    rw [Date.le_iff]
    omega

theorem first_of_first_of (d : Date) (p : Datepart) :
    (d.first_of p).first_of p = d.first_of p := by
  cases p <;> rfl

theorem last_of_last_of (d : Date) (p : Datepart) :
    (d.last_of p).last_of p = d.last_of p := by
  cases p <;> rfl

theorem last_of_first_of (d : Date) (p : Datepart) :
    (d.first_of p).last_of p = d.last_of p := by
  cases p <;> rfl

theorem le_MAX (d : Date) (hv : dateValid d.year d.month d.day = true) :
    Date.le d Date.MAX = true := by
  have hs := (dateValid_iff _ _ _).mp hv
  have h31 := (daysInMonth_pos d.year d.month (by omega) (by omega)).2
  rw [Date.le_iff]
  show d.year < 9999 ∨ d.year = 9999 ∧ (d.month < 12 ∨ d.month = 12 ∧ d.day ≤ 31)
  by_cases hm : d.month = 12
  · have := daysInMonth_12 d.year
    omega
  · omega

theorem nextDayOpt_dec31 (y : Nat) (hy : y ≤ 9998) :
    nextDayOpt ⟨y, 12, 31⟩ = some ⟨y + 1, 1, 1⟩ := by
  unfold nextDayOpt
  dsimp only
  rw [daysInMonth_12]
  rw [if_neg (by omega), if_neg (by omega), if_pos (by omega)]

/-- Shifting a valid date by one `part` unit: on success, the first day of
the shifted date's `part` period is the calendar successor of the last day
of the original date's `part` period; failure happens exactly when that
period already ends at `Date::MAX`. -/
theorem shift_one_spec (d : Date) (p : Datepart)
    (hv : dateValid d.year d.month d.day = true) :
    (∀ dtn, Date.shift d p 1 = some dtn →
        nextDayOpt (d.last_of p) = some (dtn.first_of p)) ∧
      (Date.shift d p 1 = none ↔ d.last_of p = Date.MAX) := by
  have hs := (dateValid_iff _ _ _).mp hv
  cases p with
  | year =>
    rw [shift_year_spec d 1 hv]
    by_cases hy : d.year ≤ 9998
    · rw [if_pos (by omega)]
      constructor
      · rintro dtn h
        injection h with h
        subst h
        have ht : ((d.year : Int) + 1).toNat = d.year + 1 := by omega
        have hlast : d.last_of Datepart.year = ⟨d.year, 12, 31⟩ := rfl
        rw [hlast, nextDayOpt_dec31 d.year hy]
        show some (⟨d.year + 1, 1, 1⟩ : Date) =
          some (⟨((d.year : Int) + 1).toNat, 1, 1⟩ : Date)
        rw [ht]
      · constructor
        · intro h
          exact Option.noConfusion h
        · intro h
          exfalso
          have hyy : d.year = 9999 := congrArg Date.year h
          omega
    · rw [if_neg (by omega)]
      have hyy : d.year = 9999 := by omega
      constructor
      · intro dtn h
        exact Option.noConfusion h
      · constructor
        · intro _
          show (⟨d.year, 12, 31⟩ : Date) = Date.MAX
          rw [hyy]
          rfl
        · intro _
          rfl
  | month =>
    rw [shift_month_spec d 1 hv]
    by_cases hc : d.year = 9999 ∧ d.month = 12
    · rw [if_neg (by omega)]
      constructor
      · intro dtn h
        exact Option.noConfusion h
      · constructor
        · intro _
          show (⟨d.year, d.month, daysInMonth d.year d.month⟩ : Date) = Date.MAX
          rw [hc.1, hc.2, daysInMonth_12]
          rfl
        · intro _
          rfl
    · have hbig : 12 * (d.year : Int) + ((d.month : Int) - 1) + 1 ≤ 119999 := by omega
      rw [if_pos (by constructor <;> omega)]
      constructor
      · rintro dtn h
        injection h with h
        subst h
        by_cases hm : d.month ≤ 11
        · have h1 : (12 * (d.year : Int) + ((d.month : Int) - 1) + 1) / 12 =
              (d.year : Int) := by omega
          have h2 : (12 * (d.year : Int) + ((d.month : Int) - 1) + 1) % 12 =
              (d.month : Int) := by omega
          have hfo :
              (Date.mk ((12 * (d.year : Int) + ((d.month : Int) - 1) + 1) / 12).toNat
                  ((12 * (d.year : Int) + ((d.month : Int) - 1) + 1) % 12).toNat.succ
                  (min (daysInMonth
                      ((12 * (d.year : Int) + ((d.month : Int) - 1) + 1) / 12).toNat
                      (((12 * (d.year : Int) + ((d.month : Int) - 1) + 1) % 12).toNat + 1))
                    d.day)).first_of Datepart.month =
                ⟨d.year, d.month + 1, 1⟩ := by
            show (⟨((12 * (d.year : Int) + ((d.month : Int) - 1) + 1) / 12).toNat,
                ((12 * (d.year : Int) + ((d.month : Int) - 1) + 1) % 12).toNat + 1, 1⟩ : Date) =
              ⟨d.year, d.month + 1, 1⟩
            rw [h1, h2]
            have e1 : ((d.year : Int)).toNat = d.year := by omega
            have e2 : ((d.month : Int)).toNat = d.month := by omega
            rw [e1, e2]
          rw [hfo]
          show nextDayOpt ⟨d.year, d.month, daysInMonth d.year d.month⟩ =
            some ⟨d.year, d.month + 1, 1⟩
          unfold nextDayOpt
          dsimp only
          rw [if_neg (by omega), if_pos (by omega)]
        · have hm12 : d.month = 12 := by omega
          have hy : d.year ≤ 9998 := by omega
          have h1 : (12 * (d.year : Int) + ((d.month : Int) - 1) + 1) / 12 =
              (d.year : Int) + 1 := by omega
          have h2 : (12 * (d.year : Int) + ((d.month : Int) - 1) + 1) % 12 = 0 := by
            omega
          have hfo :
              (Date.mk ((12 * (d.year : Int) + ((d.month : Int) - 1) + 1) / 12).toNat
                  ((12 * (d.year : Int) + ((d.month : Int) - 1) + 1) % 12).toNat.succ
                  (min (daysInMonth
                      ((12 * (d.year : Int) + ((d.month : Int) - 1) + 1) / 12).toNat
                      (((12 * (d.year : Int) + ((d.month : Int) - 1) + 1) % 12).toNat + 1))
                    d.day)).first_of Datepart.month =
                ⟨d.year + 1, 1, 1⟩ := by
            show (⟨((12 * (d.year : Int) + ((d.month : Int) - 1) + 1) / 12).toNat,
                ((12 * (d.year : Int) + ((d.month : Int) - 1) + 1) % 12).toNat + 1, 1⟩ : Date) =
              ⟨d.year + 1, 1, 1⟩
            rw [h1, h2]
            have e1 : ((d.year : Int) + 1).toNat = d.year + 1 := by omega
            rw [e1]
            rfl
          rw [hfo]
          show nextDayOpt ⟨d.year, d.month, daysInMonth d.year d.month⟩ =
            some ⟨d.year + 1, 1, 1⟩
          rw [hm12, daysInMonth_12]
          exact nextDayOpt_dec31 d.year hy
      · constructor
        · intro h
          exact Option.noConfusion h
        · intro h
          exfalso
          have hy9 : d.year = 9999 := congrArg Date.year h
          have hm9 : d.month = 12 := congrArg Date.month h
          exact hc ⟨hy9, hm9⟩
  | day =>
    have he : Date.shift d Datepart.day 1 = nextDayOpt d := by
      have h1 : Date.shift d Datepart.day 1 = stepN nextDayOpt 1 d := rfl
      rw [h1]
      show (nextDayOpt d).bind (stepN nextDayOpt 0) = nextDayOpt d
      cases nextDayOpt d <;> rfl
    rw [he]
    have hl : d.last_of Datepart.day = d := rfl
    rw [hl]
    constructor
    · intro dtn h
      rw [h]
      rfl
    · exact (nextDayOpt_spec d hv).2

/-! ### Fuel bound for the interval iterator -/

theorem leapsBefore_le (y : Nat) : leapsBefore y ≤ y := by
  induction y with
  | zero => simp [leapsBefore]
  | succ k ih =>
    rw [leapsBefore_succ]
    split_ifs <;> omega

theorem rata_lt_fuel (dt : Date) (hv : dateValid dt.year dt.month dt.day = true) :
    rata dt < ITER_FUEL := by
  have h := (dateValid_iff _ _ _).mp hv
  have h1 : daysBeforeMonth dt.year dt.month ≤ daysBeforeMonth dt.year 13 :=
    daysBeforeMonth_mono _ (by omega)
  have h2 := daysInYear dt.year
  have h3 := leapsBefore_le dt.year
  have h4 := (daysInMonth_pos dt.year dt.month (by omega) (by omega)).2
  show rata dt < 3700000
  unfold rata daysBeforeYear
  split_ifs at h2 <;> omega

/-- The conclusions of the iterator invariant for a terminal (singleton)
step, shared by the two loop-exit branches. -/
theorem iter_props_single (bounds : Interval) (p : Datepart) (cur : Interval)
    (hvS : dateValid cur.start.year cur.start.month cur.start.day = true)
    (hvCE : dateValid cur.end_.year cur.end_.month cur.end_.day = true)
    (hne : Date.le cur.start cur.end_ = true)
    (hEmax : cur.end_ = bounds.end_) :
    (∀ j ∈ [cur],
        dateValid j.start.year j.start.month j.start.day = true ∧
        dateValid j.end_.year j.end_.month j.end_.day = true ∧
        Date.le j.start j.end_ = true ∧
        rata cur.start ≤ rata j.start ∧ rata j.end_ ≤ rata bounds.end_) ∧
      ([cur].getLast?.map Interval.end_ = some bounds.end_) ∧
      List.Chain' (fun a b => rata b.start = rata a.end_ + 1) [cur] ∧
      List.Pairwise (fun a b => Date.lt a.end_ b.start = true) [cur] ∧
      (∀ j ∈ ([] : List Interval), j.start.first_of p = j.start) ∧
      (∀ j ∈ ([cur] : List Interval).dropLast, j.end_.last_of p = j.end_) ∧
      (∀ x : Date, dateValid x.year x.month x.day = true →
        ((Date.le cur.start x = true ∧ Date.le x bounds.end_ = true) ↔
          ∃ j ∈ [cur], Date.le j.start x = true ∧ Date.le x j.end_ = true)) := by
  refine ⟨?_, ?_, ?_, ?_, ?_, ?_, ?_⟩
  · intro j hj
    rw [List.mem_singleton] at hj
    subst hj
    exact ⟨hvS, hvCE, hne, Nat.le_refl _, Nat.le_of_eq (congrArg rata hEmax)⟩
  · show some cur.end_ = some bounds.end_
    rw [hEmax]
  · exact List.chain'_singleton cur
  · simp
  · intro j hj
    exact absurd hj (List.not_mem_nil j)
  · intro j hj
    simp at hj
  · intro x hvx
    constructor
    · rintro ⟨h1, h2⟩
      exact ⟨cur, List.mem_singleton_self cur, h1, by rw [hEmax]; exact h2⟩
    · rintro ⟨j, hj, h1, h2⟩
      rw [List.mem_singleton] at hj
      subst hj
      exact ⟨h1, by rw [← hEmax]; exact h2⟩

/-- Invariant of the loop underlying `Interval::iter`: starting from a state
whose end is the current start's `part`-period end clipped to the overall
bound, with enough fuel, the produced subintervals are non-empty, valid,
contiguous, disjoint, aligned except at the outer edges, and cover exactly
`[cur.start, bounds.end_]`. -/
theorem iterAux_spec (fuel : Nat) (bounds : Interval) (p : Datepart)
    (hvE : dateValid bounds.end_.year bounds.end_.month bounds.end_.day = true)
    (cur : Interval)
    (hvS : dateValid cur.start.year cur.start.month cur.start.day = true)
    (hcurE : cur.end_ = Date.minD (cur.start.last_of p) bounds.end_)
    (hne : Date.le cur.start cur.end_ = true)
    (hfuel : rata bounds.end_ < rata cur.start + fuel) :
    ∃ rest,
      Interval.iterAux fuel bounds p cur = cur :: rest ∧
      (∀ j ∈ cur :: rest,
        dateValid j.start.year j.start.month j.start.day = true ∧
        dateValid j.end_.year j.end_.month j.end_.day = true ∧
        Date.le j.start j.end_ = true ∧
        rata cur.start ≤ rata j.start ∧ rata j.end_ ≤ rata bounds.end_) ∧
      ((cur :: rest).getLast?.map Interval.end_ = some bounds.end_) ∧
      List.Chain' (fun a b => rata b.start = rata a.end_ + 1) (cur :: rest) ∧
      List.Pairwise (fun a b => Date.lt a.end_ b.start = true) (cur :: rest) ∧
      (∀ j ∈ rest, j.start.first_of p = j.start) ∧
      (∀ j ∈ (cur :: rest).dropLast, j.end_.last_of p = j.end_) ∧
      (∀ x : Date, dateValid x.year x.month x.day = true →
        ((Date.le cur.start x = true ∧ Date.le x bounds.end_ = true) ↔
          ∃ j ∈ cur :: rest, Date.le j.start x = true ∧ Date.le x j.end_ = true)) := by
  induction fuel generalizing cur with
  | zero =>
    exfalso
    have hvLast := (last_of_spec cur.start p hvS).1
    have hmin := minD_spec (cur.start.last_of p) bounds.end_ hvLast hvE
    have hvCE : dateValid cur.end_.year cur.end_.month cur.end_.day = true := by
      rw [hcurE]; exact hmin.1
    have h1 := rata_le_of_le cur.start cur.end_ hvS hvCE hne
    have h2 : rata cur.end_ = min (rata (cur.start.last_of p)) (rata bounds.end_) := by
      rw [hcurE]; exact hmin.2
    omega
  | succ fuel ih =>
    have hvLast := (last_of_spec cur.start p hvS).1
    have hleLast := (last_of_spec cur.start p hvS).2
    have hmin := minD_spec (cur.start.last_of p) bounds.end_ hvLast hvE
    have hvCE : dateValid cur.end_.year cur.end_.month cur.end_.day = true := by
      rw [hcurE]; exact hmin.1
    have hrCE : rata cur.end_ = min (rata (cur.start.last_of p)) (rata bounds.end_) := by
      rw [hcurE]; exact hmin.2
    have hrSL : rata cur.start ≤ rata (cur.start.last_of p) :=
      rata_le_of_le _ _ hvS hvLast hleLast
    have hshift := shift_one_spec cur.start p hvS
    rcases hsh : Date.shift cur.start p 1 with _ | dtn
    · -- the shift failed: the current period already ends at `Date::MAX`
      have hlastMax : cur.start.last_of p = Date.MAX := hshift.2.mp hsh
      have hEmax : cur.end_ = bounds.end_ := by
        apply rata_inj _ _ hvCE hvE
        rw [hrCE, hlastMax]
        have := rata_le_MAX bounds.end_ hvE
        omega
      obtain ⟨P1, P2, P3, P4, P5, P6, P7⟩ :=
        iter_props_single bounds p cur hvS hvCE hne hEmax
      exact ⟨[], by simp only [Interval.iterAux, hsh], P1, P2, P3, P4, P5, P6, P7⟩
    · have hnext : nextDayOpt (cur.start.last_of p) = some (dtn.first_of p) :=
        hshift.1 dtn hsh
      have hnds := (nextDayOpt_spec (cur.start.last_of p) hvLast).1 _ hnext
      have hvs2 : dateValid (dtn.first_of p).year (dtn.first_of p).month
          (dtn.first_of p).day = true := hnds.1
      have hrs : rata (dtn.first_of p) = rata (cur.start.last_of p) + 1 := hnds.2
      have hvsl := (last_of_spec (dtn.first_of p) p hvs2).1
      have hlfl : (dtn.first_of p).last_of p = dtn.last_of p := last_of_first_of dtn p
      have hvdl : dateValid (dtn.last_of p).year (dtn.last_of p).month
          (dtn.last_of p).day = true := by
        rw [← hlfl]; exact hvsl
      have hmins := minD_spec (dtn.last_of p) bounds.end_ hvdl hvE
      have hrsl2 : rata (dtn.first_of p) ≤ rata ((dtn.first_of p).last_of p) :=
        rata_le_of_le _ _ hvs2 hvsl ((last_of_spec (dtn.first_of p) p hvs2).2)
      have h9 : rata ((dtn.first_of p).last_of p) = rata (dtn.last_of p) := by
        rw [hlfl]
      by_cases hguard :
          Date.le (dtn.first_of p) (Date.minD (dtn.last_of p) bounds.end_) = true
      · -- the loop continues
        have hrE : rata (dtn.first_of p) ≤ rata bounds.end_ := by
          have := rata_le_of_le _ _ hvs2 hmins.1 hguard
          omega
        have hcurEL : rata cur.end_ = rata (cur.start.last_of p) := by omega
        have hcurEq : cur.end_ = cur.start.last_of p :=
          rata_inj _ _ hvCE hvLast hcurEL
        obtain ⟨rest', hEq', hmem', hlast', hchain', hpair', htail', hdrop', hunion'⟩ :=
          ih ⟨dtn.first_of p, Date.minD (dtn.last_of p) bounds.end_⟩ hvs2
            (by show Date.minD (dtn.last_of p) bounds.end_ =
                  Date.minD ((dtn.first_of p).last_of p) bounds.end_
                rw [hlfl])
            hguard
            (by show rata bounds.end_ < rata (dtn.first_of p) + fuel
                omega)
        refine ⟨⟨dtn.first_of p, Date.minD (dtn.last_of p) bounds.end_⟩ :: rest',
          ?_, ?_, ?_, ?_, ?_, ?_, ?_, ?_⟩
        · simp only [Interval.iterAux, hsh]
          rw [if_pos hguard, hEq']
        · intro j hj
          rcases List.mem_cons.mp hj with heq | hj'
          · rw [heq]
            exact ⟨hvS, hvCE, hne, Nat.le_refl _, by omega⟩
          · obtain ⟨a1, a2, a3, a4, a5⟩ := hmem' j hj'
            have a4' : rata (dtn.first_of p) ≤ rata j.start := a4
            exact ⟨a1, a2, a3, by omega, a5⟩
        · rw [List.getLast?_cons_cons]
          exact hlast'
        · rw [List.chain'_cons]
          exact ⟨by show rata (dtn.first_of p) = rata cur.end_ + 1; omega, hchain'⟩
        · rw [List.pairwise_cons]
          refine ⟨?_, hpair'⟩
          intro b hb
          obtain ⟨b1, _, _, b4, _⟩ := hmem' b hb
          have b4' : rata (dtn.first_of p) ≤ rata b.start := b4
          rw [rata_lt_iff _ _ hvCE b1]
          omega
        · intro j hj
          rcases List.mem_cons.mp hj with rfl | hj'
          · show (dtn.first_of p).first_of p = dtn.first_of p
            exact first_of_first_of dtn p
          · exact htail' j hj'
        · intro j hj
          have hdl : (cur :: ⟨dtn.first_of p, Date.minD (dtn.last_of p) bounds.end_⟩ ::
                rest' : List Interval).dropLast =
              cur :: ((⟨dtn.first_of p, Date.minD (dtn.last_of p) bounds.end_⟩ ::
                rest' : List Interval).dropLast) := rfl
          rw [hdl] at hj
          rcases List.mem_cons.mp hj with heq | hj'
          · rw [heq, hcurEq]
            exact last_of_last_of cur.start p
          · exact hdrop' j hj'
        · intro x hvx
          constructor
          · rintro ⟨hx1, hx2⟩
            by_cases hxe : rata x ≤ rata cur.end_
            · exact ⟨cur, List.mem_cons_self _ _, hx1,
                (rata_le_iff x cur.end_ hvx hvCE).mpr hxe⟩
            · have hx1' : Date.le (dtn.first_of p) x = true := by
                rw [rata_le_iff _ _ hvs2 hvx]
                omega
              obtain ⟨j, hj, hja, hjb⟩ := (hunion' x hvx).mp ⟨hx1', hx2⟩
              exact ⟨j, List.mem_cons_of_mem _ hj, hja, hjb⟩
          · rintro ⟨j, hj, hja, hjb⟩
            rcases List.mem_cons.mp hj with heq | hj'
            · rw [heq] at hja hjb
              refine ⟨hja, ?_⟩
              rw [rata_le_iff _ _ hvx hvE]
              have := rata_le_of_le x cur.end_ hvx hvCE hjb
              omega
            · obtain ⟨b1, b2, _, b4, b5⟩ := hmem' j hj'
              have b4' : rata (dtn.first_of p) ≤ rata j.start := b4
              refine ⟨?_, ?_⟩
              · rw [rata_le_iff _ _ hvS hvx]
                have := rata_le_of_le j.start x b1 hvx hja
                omega
              · rw [rata_le_iff _ _ hvx hvE]
                have := rata_le_of_le x j.end_ hvx b2 hjb
                omega
      · -- the next period starts beyond the overall bound: terminal step
        have hlt : Date.lt (Date.minD (dtn.last_of p) bounds.end_)
            (dtn.first_of p) = true := by
          by_contra hc
          exact hguard ((Date.le_iff_not_lt _ _).mpr hc)
        have hre : rata (Date.minD (dtn.last_of p) bounds.end_) <
            rata (dtn.first_of p) := (rata_lt_iff _ _ hmins.1 hvs2).mp hlt
        have hEmax : cur.end_ = bounds.end_ := by
          apply rata_inj _ _ hvCE hvE
          rw [hrCE]
          omega
        obtain ⟨P1, P2, P3, P4, P5, P6, P7⟩ :=
          iter_props_single bounds p cur hvS hvCE hne hEmax
        refine ⟨[], ?_, P1, P2, P3, P4, P5, P6, P7⟩
        simp only [Interval.iterAux, hsh]
        rw [if_neg hguard]

/-- C3: for a non-empty interval, `Interval::iter` yields a finite,
non-empty sequence of non-empty subintervals that are contiguous (each
starts the day after the previous one ends), pairwise disjoint and ordered
by start; the first starts at `i.start`, the last ends at `i.end`, their
union is exactly `[i.start, i.end]`, and every subinterval start/end is
aligned to a `part` boundary except possibly the first start and the last
end. For an empty interval the sequence is empty (and, the embedding being
a pure function of the interval, re-invocation yields the same list). -/
theorem C3_interval_iter (i : Interval) (p : Datepart)
    (hvs : dateValid i.start.year i.start.month i.start.day = true)
    (hve : dateValid i.end_.year i.end_.month i.end_.day = true) :
    (i.is_empty = true → i.iterList p = []) ∧
    (i.is_empty = false →
      i.iterList p ≠ [] ∧
      (i.iterList p).head?.map Interval.start = some i.start ∧
      (i.iterList p).getLast?.map Interval.end_ = some i.end_ ∧
      (∀ j ∈ i.iterList p, Date.le j.start j.end_ = true ∧
        dateValid j.start.year j.start.month j.start.day = true ∧
        dateValid j.end_.year j.end_.month j.end_.day = true) ∧
      List.Chain' (fun a b => rata b.start = rata a.end_ + 1) (i.iterList p) ∧
      List.Pairwise (fun a b => Date.lt a.end_ b.start = true) (i.iterList p) ∧
      List.Pairwise (fun a b => Date.lt a.start b.start = true) (i.iterList p) ∧
      (∀ j ∈ (i.iterList p).tail, j.start.first_of p = j.start) ∧
      (∀ j ∈ (i.iterList p).dropLast, j.end_.last_of p = j.end_) ∧
      (∀ x : Date, dateValid x.year x.month x.day = true →
        ((Date.le i.start x = true ∧ Date.le x i.end_ = true) ↔
          ∃ j ∈ i.iterList p, Date.le j.start x = true ∧ Date.le x j.end_ = true))) := by
  constructor
  · intro h
    simp [Interval.iterList, h]
  · intro h
    have hlt : Date.lt i.end_ i.start = false := h
    have hne0 : Date.le i.start i.end_ = true := by
      rw [Date.le_iff_not_lt, hlt]
      simp
    have hvlast := (last_of_spec i.start p hvs).1
    have hminsp := minD_spec (i.start.last_of p) i.end_ hvlast hve
    have hrlast : rata i.start ≤ rata (i.start.last_of p) :=
      rata_le_of_le _ _ hvs hvlast (last_of_spec i.start p hvs).2
    have hrne : rata i.start ≤ rata i.end_ := rata_le_of_le _ _ hvs hve hne0
    have hnecur : Date.le i.start (Date.minD (i.start.last_of p) i.end_) = true := by
      rw [rata_le_iff _ _ hvs hminsp.1]
      omega
    obtain ⟨rest, hEq, hmem, hlast, hchain, hpair, htail, hdrop, hunion⟩ :=
      iterAux_spec ITER_FUEL i p hve ⟨i.start, Date.minD (i.start.last_of p) i.end_⟩
        hvs rfl hnecur
        (by show rata i.end_ < rata i.start + ITER_FUEL
            have := rata_lt_fuel i.end_ hve
            omega)
    have hIL : i.iterList p =
        (⟨i.start, Date.minD (i.start.last_of p) i.end_⟩ : Interval) :: rest := by
      simp only [Interval.iterList, h]
      exact hEq
    rw [hIL]
    refine ⟨by simp, rfl, hlast, ?_, hchain, hpair, ?_, htail, hdrop, ?_⟩
    · intro j hj
      obtain ⟨v1, v2, v3, _, _⟩ := hmem j hj
      exact ⟨v3, v1, v2⟩
    · refine hpair.imp_of_mem ?_
      intro a b ha hb hab
      obtain ⟨va1, va2, va3, _, _⟩ := hmem a ha
      obtain ⟨vb1, _, _, _, _⟩ := hmem b hb
      rw [rata_lt_iff _ _ va1 vb1]
      have h1 := rata_le_of_le a.start a.end_ va1 va2 va3
      have h2 := (rata_lt_iff _ _ va2 vb1).mp hab
      omega
    · intro x hvx
      exact hunion x hvx

theorem C3_interval_iter_witness :
    (dateValid 2000 4 15 = true ∧ dateValid 2003 8 10 = true) ∧
      Interval.iterList ⟨⟨2000, 4, 15⟩, ⟨2003, 8, 10⟩⟩ Datepart.year ≠ [] :=
  ⟨⟨by decide, by decide⟩,
    ((C3_interval_iter ⟨⟨2000, 4, 15⟩, ⟨2003, 8, 10⟩⟩ Datepart.year
      (by decide) (by decide)).2 (by decide)).1⟩

/-! ### Limitkind lemmas -/

theorem sum_map_ite_filter (p q : Record → Prop) [DecidablePred p] [DecidablePred q]
    (g : Record → Int) (l : List Record) :
    (l.map (fun r => if p r ∧ q r then g r else 0)).sum =
      ((l.filter (fun r => decide (p r) && decide (q r))).map g).sum := by
  induction l with
  | nil => rfl
  | cons a l ih =>
    simp only [List.map_cons, List.sum_cons, List.filter_cons]
    by_cases h : p a ∧ q a
    · rw [if_pos h, if_pos (by simp only [Bool.and_eq_true, decide_eq_true_eq]; exact h)]
      simp only [List.map_cons, List.sum_cons]
      rw [ih]
    · rw [if_neg h, if_neg (by simp only [Bool.and_eq_true, decide_eq_true_eq]; exact h)]
      rw [ih]
      omega

theorem sum_map_keep (keep : Record → Bool) (f : Record → Int)
    (h0 : ∀ a, keep a = false → f a = 0) (l : List Record) :
    (l.map f).sum = ((l.filter keep).map f).sum := by
  induction l with
  | nil => rfl
  | cons a l ih =>
    simp only [List.map_cons, List.sum_cons, List.filter_cons]
    cases hk : keep a
    · rw [if_neg Bool.false_ne_true, h0 a hk, ih]
      omega
    · rw [if_pos rfl]
      simp only [List.map_cons, List.sum_cons]
      rw [ih]

/-- C2: `remaining` equals accumulated room minus positive contributions
dated `≤ year`; the Tfsa kind additionally restores the magnitude of
negative (withdrawal) records dated `< year`; the two kinds differ by
exactly that magnitude; zero-amount and future-dated records never
contribute; and the spec's worked example evaluates as claimed. -/
theorem C2_limitkind_remaining (L : Limits) (rl : Recordlist) (year : Nat) :
    Limitkind.remaining .Rrsp L rl year =
      Limits.inception_to_year L year - contributionsThrough rl year ∧
    Limitkind.remaining .Tfsa L rl year =
      Limits.inception_to_year L year - contributionsThrough rl year +
        withdrawalsBefore rl year ∧
    Limitkind.remaining .Tfsa L rl year - Limitkind.remaining .Rrsp L rl year =
      withdrawalsBefore rl year ∧
    (∀ k : Limitkind, Limitkind.remaining k L rl year =
      Limitkind.remaining k L
        (rl.filter (fun r => decide (r.amount ≠ 0) && decide (r.date.year ≤ year))) year) ∧
    Limitkind.remaining .Tfsa [(2015, 5000), (2016, 5000)]
        [⟨⟨2015, 1, 10⟩, "aaa", 2000, ""⟩, ⟨⟨2015, 2, 5⟩, "aaa", -1000, ""⟩] 2016 -
      Limitkind.remaining .Rrsp [(2015, 5000), (2016, 5000)]
        [⟨⟨2015, 1, 10⟩, "aaa", 2000, ""⟩, ⟨⟨2015, 2, 5⟩, "aaa", -1000, ""⟩] 2016 = 1000 := by
  have hc : (rl.map (fun r => if r.date.year ≤ year ∧ 0 < r.amount then r.amount else 0)).sum =
      contributionsThrough rl year :=
    sum_map_ite_filter (fun r => r.date.year ≤ year) (fun r => 0 < r.amount) Record.amount rl
  have hw : (rl.map (fun r => if r.date.year < year ∧ r.amount < 0 then -r.amount else 0)).sum =
      withdrawalsBefore rl year :=
    sum_map_ite_filter (fun r => r.date.year < year) (fun r => r.amount < 0)
      (fun r => -r.amount) rl
  refine ⟨?_, ?_, ?_, ?_, by decide⟩
  · show Limitkind.remaining_rrsp L rl year = _
    unfold Limitkind.remaining_rrsp
    rw [hc]
  · show Limitkind.remaining_tfsa L rl year = _
    unfold Limitkind.remaining_tfsa
    rw [hc, hw]
  · show Limitkind.remaining_tfsa L rl year - Limitkind.remaining_rrsp L rl year = _
    unfold Limitkind.remaining_tfsa Limitkind.remaining_rrsp
    rw [hw]
    omega
  · intro k
    have hkeep0 : ∀ a : Record,
        (decide (a.amount ≠ 0) && decide (a.date.year ≤ year)) = false →
          (if a.date.year ≤ year ∧ 0 < a.amount then a.amount else 0) = 0 := by
      intro a ha
      rw [Bool.and_eq_false_iff] at ha
      rw [if_neg]
      rintro ⟨h1, h2⟩
      rcases ha with ha | ha
      · rw [decide_eq_false_iff_not] at ha
        omega
      · rw [decide_eq_false_iff_not] at ha
        exact ha h1
    have hkeep1 : ∀ a : Record,
        (decide (a.amount ≠ 0) && decide (a.date.year ≤ year)) = false →
          (if a.date.year < year ∧ a.amount < 0 then -a.amount else 0) = 0 := by
      intro a ha
      rw [Bool.and_eq_false_iff] at ha
      rw [if_neg]
      rintro ⟨h1, h2⟩
      rcases ha with ha | ha
      · rw [decide_eq_false_iff_not] at ha
        omega
      · rw [decide_eq_false_iff_not] at ha
        omega
    cases k
    · show Limitkind.remaining_rrsp L rl year = Limitkind.remaining_rrsp L _ year
      unfold Limitkind.remaining_rrsp
      rw [sum_map_keep _ _ hkeep0 rl]
    · show Limitkind.remaining_tfsa L rl year = Limitkind.remaining_tfsa L _ year
      unfold Limitkind.remaining_tfsa
      rw [sum_map_keep _ _ hkeep0 rl,
        sum_map_keep (fun r => decide (r.amount ≠ 0) && decide (r.date.year ≤ year)) _
          hkeep1 rl]

/-! ### Total-order facts about `Date.lt` / `Date.le` (no validity needed) -/

theorem Date.le_refl' (a : Date) : Date.le a a = true := by
  rw [Date.le_iff]
  omega

theorem Date.lt_irrefl' (a : Date) : Date.lt a a = false := by
  cases h : Date.lt a a
  · rfl
  · rw [Date.lt_iff] at h
    omega

theorem Date.le_of_lt' {a b : Date} (h : Date.lt a b = true) : Date.le a b = true := by
  rw [Date.lt_iff] at h
  rw [Date.le_iff]
  omega

theorem Date.le_trans' {a b c : Date} (h1 : Date.le a b = true)
    (h2 : Date.le b c = true) : Date.le a c = true := by
  rw [Date.le_iff] at h1 h2 ⊢
  omega

theorem Date.lt_of_le_of_lt' {a b c : Date} (h1 : Date.le a b = true)
    (h2 : Date.lt b c = true) : Date.lt a c = true := by
  rw [Date.le_iff] at h1
  rw [Date.lt_iff] at h2 ⊢
  omega

theorem Date.lt_of_lt_of_le' {a b c : Date} (h1 : Date.lt a b = true)
    (h2 : Date.le b c = true) : Date.lt a c = true := by
  rw [Date.lt_iff] at h1 ⊢
  rw [Date.le_iff] at h2
  omega

theorem Date.le_antisymm' {a b : Date} (h1 : Date.le a b = true)
    (h2 : Date.le b a = true) : a = b := by
  rw [Date.le_iff] at h1 h2
  rcases a with ⟨ay, am, ad⟩
  rcases b with ⟨by_, bm, bd⟩
  simp only at h1 h2
  have h3 : ay = by_ ∧ am = bm ∧ ad = bd := by omega
  obtain ⟨e1, e2, e3⟩ := h3
  subst e1; subst e2; subst e3
  rfl

theorem Date.lt_of_not_le {a b : Date} (h : Date.le a b = false) :
    Date.lt b a = true := by
  unfold Date.le at h
  cases hc : Date.lt b a
  · rw [hc] at h
    simp at h
  · rfl

theorem Date.le_eq_false_of_lt {a b : Date} (h : Date.lt b a = true) :
    Date.le a b = false := by
  unfold Date.le
  rw [h]
  rfl

theorem Date.eq_iff_not_lt_and_le (x d : Date) :
    x = d ↔ (Date.lt x d = false ∧ Date.le x d = true) := by
  constructor
  · rintro rfl
    exact ⟨Date.lt_irrefl' x, Date.le_refl' x⟩
  · rintro ⟨h1, h2⟩
    apply Date.le_antisymm' h2
    rw [Date.le_iff_not_lt, h1]
    simp

/-! ### `takeWhile` / `dropWhile` coincide with `filter` on sorted lists -/

theorem takeWhile_dropWhile_filter {α : Type} {R : α → α → Prop} (p : α → Bool)
    (l : List α) (hs : l.Pairwise R)
    (hcl : ∀ a b, R a b → p b = true → p a = true) :
    l.takeWhile p = l.filter p ∧ l.dropWhile p = l.filter (fun x => !(p x)) := by
  induction l with
  | nil => exact ⟨rfl, rfl⟩
  | cons a l ih =>
    rw [List.pairwise_cons] at hs
    obtain ⟨hra, hpl⟩ := hs
    obtain ⟨ih1, ih2⟩ := ih hpl
    by_cases hp : p a = true
    · simp [List.takeWhile_cons, List.dropWhile_cons, List.filter_cons, hp, ih1, ih2]
    · have hp' : p a = false := Bool.eq_false_iff.mpr hp
      have hnone : ∀ b ∈ l, p b = false := by
        intro b hb
        cases hpb : p b
        · rfl
        · exact absurd (hcl a b (hra b hb) hpb) hp
      have hfn : l.filter p = [] := by
        rw [List.filter_eq_nil_iff]
        intro b hb
        rw [hnone b hb]
        simp
      have hfs : l.filter (fun x => !(p x)) = l := by
        rw [List.filter_eq_self]
        intro b hb
        rw [hnone b hb]
        rfl
      simp [List.takeWhile_cons, List.dropWhile_cons, List.filter_cons, hp', hfn, hfs]

/-- Splitting off `take`/`drop` at the `takeWhile` length. -/
theorem take_takeWhile_length {α : Type} (p : α → Bool) (l : List α) :
    l.take (l.takeWhile p).length = l.takeWhile p ∧
      l.drop (l.takeWhile p).length = l.dropWhile p := by
  constructor
  · nth_rewrite 2 [← List.takeWhile_append_dropWhile p l]
    exact List.take_left _ _
  · nth_rewrite 2 [← List.takeWhile_append_dropWhile p l]
    exact List.drop_left _ _

/-- Pointwise: `date ≤ dt` and not `date < dt` is exactly `date = dt`. -/
theorem le_and_not_lt_eq_decide (x dt : Date) :
    (Date.le x dt && !Date.lt x dt) = decide (x = dt) := by
  cases hd : decide (x = dt)
  · rw [decide_eq_false_iff_not] at hd
    cases hle : Date.le x dt
    · rfl
    · cases hlt : Date.lt x dt
      · exact absurd ((Date.eq_iff_not_lt_and_le x dt).mpr ⟨hlt, hle⟩) hd
      · rfl
  · rw [decide_eq_true_eq] at hd
    subst hd
    rw [Date.le_refl', Date.lt_irrefl']
    rfl

/-- On a sorted record list, the three `partition_point`-based segments are
the records dated before, at, and after `dt`. -/
theorem recordlist_segments (l : Recordlist) (dt : Date) (hs : sortedByDate l) :
    l.takeWhile (fun x => Date.lt x.date dt) =
      l.filter (fun x => Date.lt x.date dt) ∧
    l.dropWhile (fun x => Date.lt x.date dt) =
      l.filter (fun x => !(Date.lt x.date dt)) ∧
    (l.dropWhile (fun x => Date.lt x.date dt)).takeWhile
        (fun x => Date.le x.date dt) =
      l.filter (fun x => decide (x.date = dt)) := by
  obtain ⟨h1, h2⟩ := takeWhile_dropWhile_filter (fun x => Date.lt x.date dt) l hs
    (fun a b hab hb => Date.lt_of_le_of_lt' hab hb)
  refine ⟨h1, h2, ?_⟩
  have hsub : (l.dropWhile (fun x => Date.lt x.date dt)).Pairwise
      (fun a b : Record => Date.le a.date b.date = true) :=
    List.Pairwise.sublist (List.dropWhile_sublist _) hs
  obtain ⟨h3, _⟩ := takeWhile_dropWhile_filter (fun x => Date.le x.date dt)
    (l.dropWhile (fun x => Date.lt x.date dt)) hsub
    (fun a b hab hb => Date.le_trans' hab hb)
  rw [h3, h2, List.filter_filter]
  apply List.filter_congr
  intro x _
  exact le_and_not_lt_eq_decide x.date dt

/-! ### Insert, slice and iid lemmas -/

theorem insert_eq_splits (l : Recordlist) (r : Record) :
    Recordlist.insert l r =
      l.takeWhile (fun x => Date.le x.date r.date) ++ r ::
        l.dropWhile (fun x => Date.le x.date r.date) := by
  unfold Recordlist.insert partitionPoint
  dsimp only
  obtain ⟨h1, h2⟩ := take_takeWhile_length (fun x => Date.le x.date r.date) l
  rw [h1, h2]

theorem insert_sorted_eq (l : Recordlist) (r : Record) (hs : sortedByDate l) :
    Recordlist.insert l r =
      l.filter (fun x => Date.le x.date r.date) ++ r ::
        l.filter (fun x => !(Date.le x.date r.date)) := by
  rw [insert_eq_splits]
  obtain ⟨h1, h2⟩ := takeWhile_dropWhile_filter (fun x => Date.le x.date r.date) l hs
    (fun a b hab hb => Date.le_trans' hab hb)
  rw [h1, h2]

theorem insert_preserves_sorted (l : Recordlist) (r : Record) (hs : sortedByDate l) :
    sortedByDate (Recordlist.insert l r) := by
  rw [insert_sorted_eq l r hs]
  unfold sortedByDate
  rw [List.pairwise_append]
  refine ⟨List.Pairwise.sublist (List.filter_sublist l) hs, ?_, ?_⟩
  · rw [List.pairwise_cons]
    constructor
    · intro b hb
      rw [List.mem_filter] at hb
      have hnb : Date.le b.date r.date = false := by
        cases hc : Date.le b.date r.date
        · rfl
        · rw [hc] at hb
          simp at hb
      exact Date.le_of_lt' (Date.lt_of_not_le hnb)
    · exact List.Pairwise.sublist (List.filter_sublist l) hs
  · intro a ha b hb
    rw [List.mem_filter] at ha
    rcases List.mem_cons.mp hb with heq | hb'
    · rw [heq]
      exact ha.2
    · rw [List.mem_filter] at hb'
      have hnb : Date.le b.date r.date = false := by
        cases hc : Date.le b.date r.date
        · rfl
        · rw [hc] at hb'
          simp at hb'
      exact Date.le_trans' ha.2 (Date.le_of_lt' (Date.lt_of_not_le hnb))

theorem foldl_insert_sorted (rs : List Record) :
    ∀ l : Recordlist, sortedByDate l → sortedByDate (rs.foldl Recordlist.insert l) := by
  induction rs with
  | nil => intro l h; exact h
  | cons a rs ih =>
    intro l h
    exact ih _ (insert_preserves_sorted l a h)

theorem insert_filter_date (l : Recordlist) (r : Record) (d : Date)
    (hs : sortedByDate l) :
    (Recordlist.insert l r).filter (fun x => decide (x.date = d)) =
      l.filter (fun x => decide (x.date = d)) ++
        (if r.date = d then [r] else []) := by
  rw [insert_sorted_eq l r hs, List.filter_append, List.filter_cons]
  by_cases hdle : Date.le d r.date = true
  · have hB : (l.filter (fun x => !(Date.le x.date r.date))).filter
        (fun x => decide (x.date = d)) = [] := by
      rw [List.filter_filter, List.filter_eq_nil_iff]
      intro b hb
      intro hcon
      rw [Bool.and_eq_true, decide_eq_true_eq] at hcon
      obtain ⟨he, hne⟩ := hcon
      rw [he, hdle] at hne
      simp at hne
    have hA : (l.filter (fun x => Date.le x.date r.date)).filter
        (fun x => decide (x.date = d)) = l.filter (fun x => decide (x.date = d)) := by
      rw [List.filter_filter]
      apply List.filter_congr
      intro x _
      cases hx : decide (x.date = d)
      · simp
      · rw [decide_eq_true_eq] at hx
        rw [hx, hdle]
        rfl
    rw [hA, hB]
    by_cases hrd : r.date = d
    · rw [if_pos (by rw [hrd]; simp), if_pos hrd]
    · rw [if_neg (by simp [hrd]), if_neg hrd]
  · have hdlt : Date.lt r.date d = true :=
      Date.lt_of_not_le (Bool.eq_false_iff.mpr hdle)
    have hA : (l.filter (fun x => Date.le x.date r.date)).filter
        (fun x => decide (x.date = d)) = [] := by
      rw [List.filter_filter, List.filter_eq_nil_iff]
      intro b hb
      intro hcon
      rw [Bool.and_eq_true, decide_eq_true_eq] at hcon
      obtain ⟨he, hle⟩ := hcon
      have : Date.lt b.date b.date = true := by
        rw [← he] at hdlt
        exact Date.lt_of_le_of_lt' hle hdlt
      rw [Date.lt_irrefl'] at this
      cases this
    have hB : (l.filter (fun x => !(Date.le x.date r.date))).filter
        (fun x => decide (x.date = d)) = l.filter (fun x => decide (x.date = d)) := by
      rw [List.filter_filter]
      apply List.filter_congr
      intro x _
      cases hx : decide (x.date = d)
      · simp
      · rw [decide_eq_true_eq] at hx
        rw [hx, Date.le_eq_false_of_lt hdlt]
        rfl
    have hrd : ¬ (r.date = d) := by
      intro hcon
      rw [hcon, Date.lt_irrefl'] at hdlt
      cases hdlt
    rw [hA, hB, if_neg (by simp [hrd]), if_neg hrd]
    simp

theorem slice_single_date (l : Recordlist) (d : Date) (hs : sortedByDate l) :
    Recordlist.slice_spanning_interval l ⟨d, d⟩ =
      l.filter (fun x => decide (x.date = d)) := by
  unfold Recordlist.slice_spanning_interval
  rw [if_neg (by show ¬ (Interval.is_empty ⟨d, d⟩ = true)
                 unfold Interval.is_empty
                 show ¬ (Date.lt d d = true)
                 rw [Date.lt_irrefl' d]
                 simp)]
  dsimp only
  unfold partitionPoint
  obtain ⟨s1, s2, s3⟩ := recordlist_segments l d hs
  obtain ⟨t1, t2⟩ := take_takeWhile_length (fun x => Date.lt x.date d) l
  rw [t2]
  rw [List.drop_take]
  rw [t2]
  have harith : ∀ a b : Nat, a + b - a = b := fun a b => by omega
  rw [harith]
  obtain ⟨u1, _⟩ := take_takeWhile_length (fun x => Date.le x.date d)
    (l.dropWhile (fun x => Date.lt x.date d))
  rw [u1, s3]

theorem foldl_insert_filter (d : Date) (rs : List Record) :
    ∀ l : Recordlist, sortedByDate l →
      (rs.foldl Recordlist.insert l).filter (fun x => decide (x.date = d)) =
        l.filter (fun x => decide (x.date = d)) ++
          rs.filter (fun r => decide (r.date = d)) := by
  induction rs with
  | nil =>
    intro l _
    simp
  | cons a rs ih =>
    intro l hsl
    show ((rs.foldl Recordlist.insert (Recordlist.insert l a))).filter _ = _
    rw [ih (Recordlist.insert l a) (insert_preserves_sorted l a hsl)]
    rw [insert_filter_date l a d hsl, List.filter_cons]
    by_cases had : a.date = d
    · simp [had]
    · simp [had]

/-! ### `iter_with_iid` lemmas -/

theorem iterWithIidAux_snd (l : List Record) :
    ∀ (iid : Nat) (prev : Option Date),
      (iterWithIidAux iid prev l).map Prod.snd = l := by
  induction l with
  | nil => intro iid prev; rfl
  | cons a l ih =>
    intro iid prev
    show (_ :: (iterWithIidAux _ (some a.date) l).map Prod.snd) = _
    rw [ih]

theorem iterWithIidAux_chain (l : List Record) :
    ∀ (iid : Nat) (prev : Option Date),
      List.Chain' (fun a b : Nat × Record =>
          if Date.lt a.2.date b.2.date = true then b.1 = 0 else b.1 = a.1 + 1)
        (iterWithIidAux iid prev l) := by
  induction l with
  | nil => intro iid prev; exact List.chain'_nil
  | cons a l ih =>
    intro iid prev
    have key : ∀ k : Nat,
        List.Chain' (fun a b : Nat × Record =>
            if Date.lt a.2.date b.2.date = true then b.1 = 0 else b.1 = a.1 + 1)
          ((k, a) :: iterWithIidAux (k + 1) (some a.date) l) := by
      intro k
      cases l with
      | nil => exact List.chain'_singleton _
      | cons b l2 =>
        have hstep : iterWithIidAux (k + 1) (some a.date) (b :: l2) =
            ((if Date.lt a.date b.date then 0 else k + 1), b) ::
              iterWithIidAux ((if Date.lt a.date b.date then 0 else k + 1) + 1)
                (some b.date) l2 := rfl
        rw [hstep, List.chain'_cons]
        constructor
        · show if Date.lt a.date b.date = true
              then (if Date.lt a.date b.date then 0 else k + 1) = 0
              else (if Date.lt a.date b.date then 0 else k + 1) = k + 1
          by_cases hab : Date.lt a.date b.date = true
          · rw [if_pos hab, if_pos hab]
          · rw [if_neg hab, if_neg hab]
        · rw [← hstep]
          exact ih _ _
    exact key (match prev with
      | some d => if Date.lt d a.date then 0 else iid
      | none => iid)


theorem iter_with_iid_head (l : Recordlist) :
    (Recordlist.iter_with_iid l).head?.map Prod.fst = l.head?.map (fun _ => 0) := by
  cases l with
  | nil => rfl
  | cons a l => rfl

/-! ### `index_of` / `get` / `remove` specifications -/

theorem getElemOpt_isSome_iff {α : Type} (l : List α) (n : Nat) :
    l[n]?.isSome = true ↔ n < l.length := by
  constructor
  · intro h
    by_contra hc
    rw [List.getElem?_eq_none (by omega)] at h
    cases h
  · intro h
    rw [List.getElem?_eq_getElem h]
    rfl

theorem index_of_spec (l : Recordlist) (dt : Date) (iid : Nat) (hs : sortedByDate l) :
    Recordlist.index_of l dt iid =
      if iid < l.countP (fun x => decide (x.date = dt))
      then some ((l.filter (fun x => Date.lt x.date dt)).length + iid)
      else none := by
  unfold Recordlist.index_of partitionPoint
  dsimp only
  obtain ⟨s1, s2, s3⟩ := recordlist_segments l dt hs
  obtain ⟨t1, t2⟩ := take_takeWhile_length (fun x => Date.lt x.date dt) l
  rw [t2, s3, s1, List.countP_eq_length_filter]
  by_cases h : iid < (l.filter (fun x => decide (x.date = dt))).length
  · rw [if_pos (by omega), if_pos h]
  · rw [if_neg (by omega), if_neg h]

theorem recordlist_decomp (l : Recordlist) (dt : Date) (hs : sortedByDate l) :
    l = l.filter (fun x => Date.lt x.date dt) ++
        (l.filter (fun x => decide (x.date = dt)) ++
          (l.dropWhile (fun x => Date.lt x.date dt)).dropWhile
            (fun x => Date.le x.date dt)) := by
  obtain ⟨s1, s2, s3⟩ := recordlist_segments l dt hs
  have ha := List.takeWhile_append_dropWhile (fun x => Date.lt x.date dt) l
  have hb := List.takeWhile_append_dropWhile (fun x => Date.le x.date dt)
    (l.dropWhile (fun x => Date.lt x.date dt))
  rw [s1] at ha
  rw [s3] at hb
  rw [← hb] at ha
  exact ha.symm

theorem get_spec (l : Recordlist) (dt : Date) (iid : Nat) (hs : sortedByDate l) :
    Recordlist.get l dt iid = (l.filter (fun x => decide (x.date = dt)))[iid]? := by
  unfold Recordlist.get
  rw [index_of_spec l dt iid hs]
  by_cases h : iid < l.countP (fun x => decide (x.date = dt))
  · rw [if_pos h, Option.some_bind]
    nth_rewrite 1 [recordlist_decomp l dt hs]
    rw [List.getElem?_append_right (Nat.le_add_right _ _)]
    have harith : (l.filter (fun x => Date.lt x.date dt)).length + iid -
        (l.filter (fun x => Date.lt x.date dt)).length = iid := by omega
    rw [harith, List.getElem?_append]
    rw [if_pos (by rw [List.countP_eq_length_filter] at h; exact h)]
  · rw [if_neg h, Option.none_bind]
    symm
    apply List.getElem?_eq_none
    rw [← List.countP_eq_length_filter]
    omega

/-- C6: `get`/`remove` at `(date, iid)` succeed exactly when `iid` is below
the number of records dated `dt`, in which case they address the `iid`-th
record among those dated `dt` in stored order; on failure they return
`none` and `remove` leaves the list untouched. -/
theorem C6_recordlist_get_remove (l : Recordlist) (dt : Date) (iid : Nat)
    (hs : sortedByDate l) :
    ((Recordlist.get l dt iid).isSome = true ↔
        iid < l.countP (fun x => decide (x.date = dt))) ∧
    ((Recordlist.remove l dt iid).1.isSome = true ↔
        iid < l.countP (fun x => decide (x.date = dt))) ∧
    Recordlist.get l dt iid = (l.filter (fun x => decide (x.date = dt)))[iid]? ∧
    (Recordlist.remove l dt iid).1 = Recordlist.get l dt iid ∧
    (∀ r, (Recordlist.remove l dt iid).1 = some r →
      ∃ i, Recordlist.index_of l dt iid = some i ∧ l[i]? = some r ∧
        (Recordlist.remove l dt iid).2 = l.take i ++ l.drop (i + 1)) ∧
    ((Recordlist.remove l dt iid).1 = none → (Recordlist.remove l dt iid).2 = l) := by
  have hget := get_spec l dt iid hs
  have hidx := index_of_spec l dt iid hs
  have hcount : l.countP (fun x => decide (x.date = dt)) =
      (l.filter (fun x => decide (x.date = dt))).length :=
    List.countP_eq_length_filter _ _
  by_cases h : iid < l.countP (fun x => decide (x.date = dt))
  · rw [if_pos h] at hidx
    have hrem : Recordlist.remove l dt iid =
        (l[(l.filter (fun x => Date.lt x.date dt)).length + iid]?,
          l.eraseIdx ((l.filter (fun x => Date.lt x.date dt)).length + iid)) := by
      unfold Recordlist.remove
      rw [hidx]
    have hfst : (Recordlist.remove l dt iid).1 = Recordlist.get l dt iid := by
      rw [hrem]
      unfold Recordlist.get
      rw [hidx, Option.some_bind]
    have hsome : (Recordlist.get l dt iid).isSome = true := by
      rw [hget, getElemOpt_isSome_iff]
      omega
    refine ⟨?_, ?_, hget, hfst, ?_, ?_⟩
    · rw [hsome]
      simp only [true_iff]
      exact h
    · rw [hfst, hsome]
      simp only [true_iff]
      exact h
    · intro r hr
      refine ⟨(l.filter (fun x => Date.lt x.date dt)).length + iid, hidx, ?_, ?_⟩
      · rw [hrem] at hr
        exact hr
      · rw [hrem, List.eraseIdx_eq_take_drop_succ]
    · intro hnone
      rw [hfst] at hnone
      rw [hnone] at hsome
      cases hsome
  · rw [if_neg h] at hidx
    have hrem : Recordlist.remove l dt iid = (none, l) := by
      unfold Recordlist.remove
      rw [hidx]
    have hgnone : Recordlist.get l dt iid = none := by
      unfold Recordlist.get
      rw [hidx, Option.none_bind]
    refine ⟨?_, ?_, hget, ?_, ?_, ?_⟩
    · rw [hgnone]
      constructor
      · intro hc
        cases hc
      · intro hc
        exact absurd hc h
    · rw [hrem]
      constructor
      · intro hc
        cases hc
      · intro hc
        exact absurd hc h
    · rw [hrem, hgnone]
    · intro r hr
      rw [hrem] at hr
      cases hr
    · intro _
      rw [hrem]

theorem C6_recordlist_get_remove_witness :
    sortedByDate [(⟨⟨2015, 1, 1⟩, "a", 100, ""⟩ : Record),
        ⟨⟨2015, 1, 1⟩, "b", 200, ""⟩] ∧
      Recordlist.get [⟨⟨2015, 1, 1⟩, "a", 100, ""⟩, ⟨⟨2015, 1, 1⟩, "b", 200, ""⟩]
          ⟨2015, 1, 1⟩ 1 =
        ([(⟨⟨2015, 1, 1⟩, "a", 100, ""⟩ : Record),
            ⟨⟨2015, 1, 1⟩, "b", 200, ""⟩].filter
          (fun x => decide (x.date = ⟨2015, 1, 1⟩)))[1]? :=
  ⟨by decide,
    (C6_recordlist_get_remove
      [⟨⟨2015, 1, 1⟩, "a", 100, ""⟩, ⟨⟨2015, 1, 1⟩, "b", 200, ""⟩]
      ⟨2015, 1, 1⟩ 1 (by decide)).2.2.1⟩

/-- C5: insertion keeps the list sorted by date, places the new record
after every record of the same date while preserving the relative order of
the others; every list built by a sequence of inserts is sorted and its
single-date slices list that date's records in insertion order; and
`iter_with_iid` starts at ordinal 0, resets to 0 exactly when the date
increases and increments by 1 otherwise. -/
theorem C5_recordlist_sorted_stable :
    (∀ (l : Recordlist) (r : Record), sortedByDate l →
      sortedByDate (Recordlist.insert l r)) ∧
    (∀ rs : List Record, sortedByDate (rs.foldl Recordlist.insert [])) ∧
    (∀ (l : Recordlist) (r : Record), sortedByDate l →
      Recordlist.insert l r =
        l.filter (fun x => Date.le x.date r.date) ++ r ::
          l.filter (fun x => !(Date.le x.date r.date))) ∧
    (∀ (rs : List Record) (d : Date),
      Recordlist.slice_spanning_interval (rs.foldl Recordlist.insert []) ⟨d, d⟩ =
        rs.filter (fun r => decide (r.date = d))) ∧
    (∀ l : Recordlist, (Recordlist.iter_with_iid l).map Prod.snd = l) ∧
    (∀ l : Recordlist,
      (Recordlist.iter_with_iid l).head?.map Prod.fst = l.head?.map (fun _ => 0)) ∧
    (∀ l : Recordlist,
      List.Chain' (fun a b : Nat × Record =>
        if Date.lt a.2.date b.2.date = true then b.1 = 0 else b.1 = a.1 + 1)
        (Recordlist.iter_with_iid l)) := by
  refine ⟨insert_preserves_sorted, ?_, insert_sorted_eq, ?_, ?_, iter_with_iid_head, ?_⟩
  · intro rs
    exact foldl_insert_sorted rs [] List.Pairwise.nil
  · intro rs d
    rw [slice_single_date _ d (foldl_insert_sorted rs [] List.Pairwise.nil)]
    rw [foldl_insert_filter d rs [] List.Pairwise.nil]
    rfl
  · intro l
    exact iterWithIidAux_snd l 0 none
  · intro l
    exact iterWithIidAux_chain l 0 none

theorem C5_recordlist_sorted_stable_witness :
    sortedByDate [(⟨⟨2015, 1, 1⟩, "a", 100, ""⟩ : Record)] ∧
      Recordlist.insert [⟨⟨2015, 1, 1⟩, "a", 100, ""⟩] ⟨⟨2015, 1, 1⟩, "b", 200, ""⟩ =
        [(⟨⟨2015, 1, 1⟩, "a", 100, ""⟩ : Record)].filter
            (fun x => Date.le x.date (⟨2015, 1, 1⟩ : Date)) ++
          (⟨⟨2015, 1, 1⟩, "b", 200, ""⟩ : Record) ::
            [(⟨⟨2015, 1, 1⟩, "a", 100, ""⟩ : Record)].filter
              (fun x => !(Date.le x.date (⟨2015, 1, 1⟩ : Date))) :=
  ⟨by decide,
    C5_recordlist_sorted_stable.2.2.1 [⟨⟨2015, 1, 1⟩, "a", 100, ""⟩]
      ⟨⟨2015, 1, 1⟩, "b", 200, ""⟩ (by decide)⟩

/-! ### Newline-termination lemmas for the renderers -/

theorem endsNL_append (s t : String) (h : endsNL t) : endsNL (s ++ t) := by
  unfold endsNL at *
  rw [String.data_append, List.getLast?_append_of_ne_nil]
  · exact h
  · intro hc
    rw [hc] at h
    cases h

theorem endsNL_newline (s : String) : endsNL (s ++ "\n") := by
  unfold endsNL
  rw [String.data_append]
  have : ("\n" : String).data = ['\n'] := rfl
  rw [this, List.getLast?_concat]

theorem append_empty_str (s : String) : s ++ "" = s := by
  apply String.ext
  rw [String.data_append]
  simp [String.ext_iff]

theorem tree_nl_strong (k : Nat) :
    (∀ n : Node, sizeOf n ≤ k → ∀ cs pre b, endsNL (writeNode cs pre b n)) ∧
    (∀ l : List Node, sizeOf l ≤ k → ∀ cs pre,
      writeChildren cs pre l = "" ∨ endsNL (writeChildren cs pre l)) := by
  induction k with
  | zero =>
    constructor
    · intro n hn
      exfalso
      cases n with
      | mk d c =>
        simp [Node.mk.sizeOf_spec] at hn
    · intro l hl
      exfalso
      cases l with
      | nil => simp at hl
      | cons a t =>
        simp [List.cons.sizeOf_spec] at hl
  | succ k ih =>
    constructor
    · intro n hn cs pre b
      cases n with
      | mk data children =>
        have hsz : sizeOf children ≤ k := by
          rw [Node.mk.sizeOf_spec] at hn
          have : 0 ≤ sizeOf data := Nat.zero_le _
          omega
        rw [writeNode]
        rcases ih.2 children hsz cs
            (pre ++ (if b = true then cs.tree_space else cs.tree_pipe_gap)) with h | h
        · rw [h, append_empty_str]
          exact endsNL_newline _
        · exact endsNL_append _ _ h
    · intro l hl cs pre
      cases l with
      | nil => exact Or.inl rfl
      | cons c rest =>
        cases rest with
        | nil =>
          right
          rw [writeChildren]
          have hsz : sizeOf c ≤ k := by
            simp [List.cons.sizeOf_spec] at hl
            omega
          exact ih.1 c hsz cs pre true
        | cons c2 rest2 =>
          right
          rw [writeChildren]
          have hsz1 : sizeOf c ≤ k := by
            simp [List.cons.sizeOf_spec] at hl
            omega
          have hsz2 : sizeOf (c2 :: rest2) ≤ k := by
            simp [List.cons.sizeOf_spec] at hl ⊢
            omega
          rcases ih.2 (c2 :: rest2) hsz2 cs pre with h | h
          · rw [h, append_empty_str]
            exact ih.1 c hsz1 cs pre false
          · exact endsNL_append _ _ h

theorem writeChildren_nl (cs : Charset) (pre : String) (l : List Node) :
    writeChildren cs pre l = "" ∨ endsNL (writeChildren cs pre l) :=
  (tree_nl_strong (sizeOf l)).2 l (Nat.le_refl _) cs pre

theorem treeRenderLv1_ne_nil_nl (cs : Charset) (l : List Node) (h : l ≠ []) :
    endsNL (treeRenderLv1 cs l) := by
  induction l with
  | nil => exact absurd rfl h
  | cons lv1 rest ih =>
    rw [treeRenderLv1]
    by_cases hr : rest = []
    · subst hr
      rw [show treeRenderLv1 cs [] = "" from rfl, append_empty_str]
      rcases writeChildren_nl cs "" lv1.children with hw | hw
      · rw [hw, append_empty_str]
        exact endsNL_newline _
      · exact endsNL_append _ _ hw
    · exact endsNL_append _ _ (ih hr)

theorem treeRenderLv1_nil_or_nl (cs : Charset) (l : List Node) :
    treeRenderLv1 cs l = "" ∨ endsNL (treeRenderLv1 cs l) := by
  cases l with
  | nil => exact Or.inl rfl
  | cons a t => exact Or.inr (treeRenderLv1_ne_nil_nl cs (a :: t) (by simp))

/-! ### The forview tree of a non-empty record list is non-empty -/

theorem modifyLast_children_ne (n : Node) (f : Node → Node) (h : n.children ≠ []) :
    (n.modifyLast f).children ≠ [] := by
  unfold Node.modifyLast
  cases hg : n.children.getLast? with
  | none => exact h
  | some c =>
    show (n.children.dropLast ++ [f c]) ≠ []
    simp

theorem make_year_children_ne (cfg : ForviewConfig) (root : Node) (r : Record)
    (iid0 alignment_charlen : Nat) :
    (cfg.make_year root r iid0 alignment_charlen).children ≠ [] := by
  unfold ForviewConfig.make_year
  dsimp only
  by_cases h : lastChildHasData root (yearStr r.date.year) = true
  · rw [if_neg (by simp [h])]
    apply modifyLast_children_ne
    unfold lastChildHasData at h
    cases hg : root.children.getLast? with
    | none =>
      rw [hg] at h
      cases h
    | some c =>
      intro hc
      rw [hc] at hg
      cases hg
  · rw [if_pos (by simp [h])]
    apply modifyLast_children_ne
    show (root.children ++ [(⟨yearStr r.date.year, []⟩ : Node)]) ≠ []
    simp

theorem foldl_make_year_children_ne (cfg : ForviewConfig) (al : Nat)
    (l : List (Nat × Record)) (hne : l ≠ []) :
    ∀ root : Node,
      (l.foldl (fun root p => cfg.make_year root p.2 p.1 al) root).children ≠ [] := by
  induction l with
  | nil => exact absurd rfl hne
  | cons a t ih =>
    intro root
    show ((t.foldl _ (cfg.make_year root a.2 a.1 al))).children ≠ []
    cases ht : t with
    | nil => exact make_year_children_ne cfg root a.2 a.1 al
    | cons b t2 =>
      rw [← ht]
      exact ih (by rw [ht]; simp) _

theorem iter_with_iid_ne_nil (l : Recordlist) (h : l ≠ []) :
    Recordlist.iter_with_iid l ≠ [] := by
  intro hc
  have := iterWithIidAux_snd l 0 none
  unfold Recordlist.iter_with_iid at hc
  rw [hc] at this
  exact h this.symm

unseal countDigitsAux in
/-- C7 counterexample: a barchart over a non-empty record list whose
records all fall outside the requested bounds renders the empty string,
with no trailing newline and no sentinel. -/
theorem C7_counterexample :
    Output.render (Output.Barchart ⟨Charset.default, ⟨⟨0, 1, 1⟩, ⟨2010, 12, 31⟩⟩,
      Datepart.day, 80, [⟨⟨2015, 3, 30⟩, "aaa", 10000, ""⟩]⟩) = "" := by
  decide

/-! ### Barchart rendering lemmas -/

theorem strConcat_all_empty (l : List String) (h : ∀ s ∈ l, s = "") :
    strConcat l = "" := by
  induction l with
  | nil => rfl
  | cons a t ih =>
    rw [strConcat, h a (by simp), ih (fun s hs => h s (by simp [hs]))]
    rfl

theorem strConcat_last_nl (l : List String) (hne : l ≠ []) (h : ∀ s ∈ l, endsNL s) :
    endsNL (strConcat l) := by
  induction l with
  | nil => exact absurd rfl hne
  | cons a t ih =>
    rw [strConcat]
    cases ht : t with
    | nil =>
      rw [show strConcat [] = "" from rfl, append_empty_str]
      exact h a (by simp)
    | cons b t2 =>
      rw [← ht]
      apply endsNL_append
      apply ih (by rw [ht]; simp)
      intro s hs
      exact h s (List.mem_cons_of_mem a hs)

theorem iterList_ne_nil (i : Interval) (p : Datepart) (h : i.is_empty = false) :
    i.iterList p ≠ [] := by
  unfold Interval.iterList
  rw [if_neg (by rw [h]; exact Bool.false_ne_true)]
  rw [show ITER_FUEL = 3699999 + 1 from rfl]
  rw [Interval.iterAux]
  exact List.cons_ne_nil _ _

theorem draw_nl (b : Barchart) (dt : Date)
    (h : (b.pos.is_empty && b.neg.is_empty) = false) :
    endsNL (b.draw dt) := by
  unfold Barchart.draw
  rw [if_neg (by rw [h]; exact Bool.false_ne_true)]
  dsimp only
  by_cases h2 : (!b.pos.is_empty && b.neg.is_empty) = true
  · rw [if_pos h2]
    have hp : (!b.pos.is_empty) = true := by
      rw [Bool.and_eq_true] at h2
      exact h2.1
    rw [if_pos hp]
    apply endsNL_append
    exact endsNL_newline _
  · rw [if_neg h2]
    exact endsNL_newline _

theorem barchart_render_empty_bounds (b : Barchart)
    (h : b.bounds.is_empty = true) : b.render = "" := by
  unfold Barchart.render Interval.iterList
  rw [if_pos h]
  rfl

theorem barchart_render_empty_aggs (b : Barchart)
    (h : (b.pos.is_empty && b.neg.is_empty) = true) : b.render = "" := by
  unfold Barchart.render
  apply strConcat_all_empty
  intro s hs
  rw [List.mem_map] at hs
  obtain ⟨iv, _, rfl⟩ := hs
  unfold Barchart.draw
  rw [if_pos h]

theorem barchart_render_nl (b : Barchart)
    (hb : b.bounds.is_empty = false)
    (ha : (b.pos.is_empty && b.neg.is_empty) = false) :
    endsNL b.render := by
  unfold Barchart.render
  apply strConcat_last_nl
  · intro hc
    rw [List.map_eq_nil_iff] at hc
    exact iterList_ne_nil _ _ hb hc
  · intro s hs
    rw [List.mem_map] at hs
    obtain ⟨iv, _, rfl⟩ := hs
    exact draw_nl b iv.start ha

theorem tree_render_nil_or_nl (t : Tree) : t.render = "" ∨ endsNL t.render :=
  treeRenderLv1_nil_or_nl t.charset t.root.children

theorem lp_render_nl (lp : Limitprinter) (h : lp.summary ≠ []) : endsNL lp.render := by
  unfold Limitprinter.render
  apply endsNL_append
  apply strConcat_last_nl
  · simpa using h
  · intro s hs
    rw [List.mem_map] at hs
    obtain ⟨row, _, rfl⟩ := hs
    unfold Limitprinter.drawRow
    dsimp only
    exact endsNL_newline _

/-- C7 (corrected): `Output::to_string` ends with a newline for string,
tree-for-sum, non-empty tree-for-view and limit-printer outputs, and an
empty record list renders the `"No transactions.\n"` sentinel through the
tree-for-view and barchart builders; however a barchart over a non-empty
record list renders the empty string — no newline and no sentinel —
whenever its clipped bounds are empty (records outside the bounds) or no
in-bounds record has a nonzero amount, and otherwise ends with a
newline. -/
theorem C7_output_render :
    (∀ s, endsNL (Output.render (Output.Str s))) ∧
    (∀ (cfg : ForsumConfig) (iv : Interval),
      endsNL (Output.render (Output.TreeForSum cfg iv))) ∧
    (∀ cfg : ForviewConfig, cfg.rl = [] →
      Output.render (Output.TreeForView cfg) = "No transactions.\n") ∧
    (∀ cfg : ForviewConfig, cfg.rl ≠ [] →
      endsNL (Output.render (Output.TreeForView cfg))) ∧
    (∀ cfg : BarchartConfig, cfg.rl = [] →
      Output.render (Output.Barchart cfg) = "No transactions.\n") ∧
    (∀ cfg : LimitprinterConfig, endsNL (Output.render (Output.Limitprinter cfg))) ∧
    (∀ cfg : BarchartConfig, cfg.rl ≠ [] →
      (((cfg.to_barchart).bounds.is_empty = true ∨
          ((cfg.to_barchart).pos.is_empty && (cfg.to_barchart).neg.is_empty) = true) →
        Output.render (Output.Barchart cfg) = "") ∧
      ((cfg.to_barchart).bounds.is_empty = false →
        ((cfg.to_barchart).pos.is_empty && (cfg.to_barchart).neg.is_empty) = false →
        endsNL (Output.render (Output.Barchart cfg)))) := by
  refine ⟨?_, ?_, ?_, ?_, ?_, ?_, ?_⟩
  · intro s
    simp only [Output.render]
    by_cases h : strEndsWithNL s = true
    · rw [if_pos h]
      exact eq_of_beq h
    · rw [if_neg h]
      exact endsNL_newline s
  · intro cfg iv
    simp only [Output.render]
    rcases tree_render_nil_or_nl cfg.to_tree with hr | hr
    · rw [hr, append_empty_str]
      exact endsNL_newline _
    · exact endsNL_append _ _ hr
  · intro cfg h
    simp only [Output.render]
    rw [if_pos (by rw [h]; rfl)]
  · intro cfg h
    simp only [Output.render]
    rw [if_neg (by
      intro hc
      rw [List.isEmpty_iff] at hc
      exact h hc)]
    have hne := iter_with_iid_ne_nil cfg.rl h
    unfold Tree.render ForviewConfig.to_tree
    dsimp only
    apply treeRenderLv1_ne_nil_nl
    exact foldl_make_year_children_ne cfg cfg.get_alignment_charlen _ hne _
  · intro cfg h
    simp only [Output.render]
    rw [if_pos (by rw [h]; rfl)]
  · intro cfg
    simp only [Output.render]
    apply lp_render_nl
    unfold LimitprinterConfig.to_limitprinter
    dsimp only
    simp
  · intro cfg h
    constructor
    · intro hcase
      simp only [Output.render]
      rw [if_neg (by
        intro hc
        rw [List.isEmpty_iff] at hc
        exact h hc)]
      rcases hcase with hb | ha
      · exact barchart_render_empty_bounds _ hb
      · exact barchart_render_empty_aggs _ ha
    · intro hb ha
      simp only [Output.render]
      rw [if_neg (by
        intro hc
        rw [List.isEmpty_iff] at hc
        exact h hc)]
      exact barchart_render_nl _ hb ha

theorem C7_output_render_witness :
    ((⟨Charset.default, 0, [], none⟩ : ForviewConfig).rl = []) ∧
      Output.render (Output.TreeForView ⟨Charset.default, 0, [], none⟩) =
        "No transactions.\n" :=
  ⟨rfl, C7_output_render.2.2.1 ⟨Charset.default, 0, [], none⟩ rfl⟩

/-! ### Barchart sizing lemmas -/

theorem i64abs_neg_of_range (m : Int) (h1 : 0 ≤ m) (h2 : m ≤ I64_MAX) :
    i64abs (-m) = m := by
  unfold i64abs
  rw [if_neg (by rw [I64_MIN_eq]; rw [I64_MAX_eq] at h2; omega)]
  omega

theorem charlen_le_27 (m : Int) (h1 : 0 ≤ m) (h2 : m ≤ I64_MAX) :
    charlen (-m) ≤ 27 := by
  unfold charlen
  rw [i64abs_neg_of_range m h1 h2]
  dsimp only
  rw [I64_MAX_eq] at h2
  have hu1 : (100 : Int) ≤ max m 100 := by omega
  have hu2 : (max m 100).toNat < 10 ^ 19 := by
    have : (10 : Int) ^ 19 = 10000000000000000000 := by norm_num
    omega
  have hcd : count_digits (max m 100).toNat =
      max 1 (Nat.log 10 (max m 100).toNat + 1) := by
    rw [count_digits, if_neg (by
      have h19 : (10 : Nat) ^ 19 = 10000000000000000000 := by norm_num
      omega)]
    exact countDigitsAux_eq _ (by omega) 1
  have hlog : Nat.log 10 (max m 100).toNat ≤ 18 := by
    by_contra hc
    have h1' : 10 ^ 19 ≤ 10 ^ (Nat.log 10 (max m 100).toNat) :=
      Nat.pow_le_pow_right (by norm_num) (by omega)
    have h2' : 10 ^ (Nat.log 10 (max m 100).toNat) ≤ (max m 100).toNat :=
      Nat.pow_log_le_self 10 (by omega)
    omega
  rw [hcd]
  split_ifs with hneg <;> omega

theorem charlen_neg_eq (m : Int) (h1 : 0 < m) (h2 : m ≤ I64_MAX) :
    charlen (-m) = charlen m + 2 := by
  unfold charlen
  rw [i64abs_neg_of_range m (by omega) h2, i64abs_of_nonneg (by omega : (0:Int) ≤ m)]
  dsimp only
  rw [if_pos (by omega), if_neg (by omega)]

theorem to_barchart_fields (cfg : BarchartConfig) :
    (cfg.to_barchart).label_charlen =
      (match cfg.unit with | .year => 4 | .month => 8 | .day => 10) ∧
    (cfg.to_barchart).max_barlen =
      max cfg.term_width MIN_TERM_WIDTH - (cfg.to_barchart).label_charlen -
        BOUNDING_SPACES_COUNT - 1 - charlen (-(cfg.to_barchart).max_val) := by
  unfold BarchartConfig.to_barchart
  dsimp only
  cases cfg.unit <;> exact ⟨rfl, rfl⟩

/-- C9: the barchart's `max_bar_length` is `max(terminal width, 60)` minus
the unit label width (4/8/10 for year/month/day), the two bounding spaces,
the axis column, and the char-length of the *negated* maximum magnitude
(i.e. the parenthesized rendering, two characters wider than the positive
rendering, is used for sizing regardless of sign); the `usize`
subtractions never underflow; and each bar's length is
`round(val / max_val * max_bar_length)` (in exact rational arithmetic for
the `f64` expression) clamped to at most `max_bar_length`. -/
theorem C9_barchart_max_bar_length (cfg : BarchartConfig)
    (h1 : 0 ≤ (cfg.to_barchart).max_val)
    (h2 : (cfg.to_barchart).max_val ≤ I64_MAX) :
    (cfg.to_barchart).label_charlen =
      (match cfg.unit with | .year => 4 | .month => 8 | .day => 10) ∧
    ((cfg.to_barchart).max_barlen : Int) =
      (max cfg.term_width MIN_TERM_WIDTH : Nat) -
        ((cfg.to_barchart).label_charlen : Int) - (BOUNDING_SPACES_COUNT : Nat) - 1 -
        (charlen (-(cfg.to_barchart).max_val) : Int) ∧
    (0 < (cfg.to_barchart).max_val →
      charlen (-(cfg.to_barchart).max_val) = charlen ((cfg.to_barchart).max_val) + 2) ∧
    (∀ val : Int, (cfg.to_barchart).barlen val =
      min (cfg.to_barchart).max_barlen
        (roundQ ((val : ℚ) / (((cfg.to_barchart).max_val : Int) : ℚ) *
          (((cfg.to_barchart).max_barlen : Nat) : ℚ))).toNat) ∧
    (∀ val : Int, (cfg.to_barchart).barlen val ≤ (cfg.to_barchart).max_barlen) := by
  obtain ⟨hlab, hbar⟩ := to_barchart_fields cfg
  refine ⟨hlab, ?_, fun h0 => charlen_neg_eq _ h0 h2, fun val => rfl,
    fun val => Nat.min_le_left _ _⟩
  rw [hbar]
  have hcl := charlen_le_27 _ h1 h2
  have hlab10 : (cfg.to_barchart).label_charlen ≤ 10 := by
    rw [hlab]
    cases cfg.unit <;> norm_num
  have htw : 60 ≤ max cfg.term_width MIN_TERM_WIDTH := by
    have : MIN_TERM_WIDTH = 60 := rfl
    omega
  have hB : BOUNDING_SPACES_COUNT = 2 := rfl
  push_cast
  omega

theorem C9_barchart_max_bar_length_witness :
    (0 ≤ ((⟨Charset.default, Interval.FULL, Datepart.year, 80,
        [⟨⟨2015, 3, 30⟩, "aaa", 15000, ""⟩]⟩ : BarchartConfig).to_barchart).max_val ∧
      ((⟨Charset.default, Interval.FULL, Datepart.year, 80,
        [⟨⟨2015, 3, 30⟩, "aaa", 15000, ""⟩]⟩ : BarchartConfig).to_barchart).max_val ≤
        I64_MAX) ∧
    ((⟨Charset.default, Interval.FULL, Datepart.year, 80,
        [⟨⟨2015, 3, 30⟩, "aaa", 15000, ""⟩]⟩ : BarchartConfig).to_barchart).label_charlen =
      (match Datepart.year with | .year => 4 | .month => 8 | .day => 10) :=
  ⟨⟨by decide, by decide⟩,
    (C9_barchart_max_bar_length
      ⟨Charset.default, Interval.FULL, Datepart.year, 80,
        [⟨⟨2015, 3, 30⟩, "aaa", 15000, ""⟩]⟩
      (by decide) (by decide)).1⟩

end Ledger
